import Mathlib

/-!
# pegasus-kickstart `interpose.c`: descriptor accounting and trace emission

A shallow embedding of `src/tools/pegasus-kickstart/interpose.c`.

* The globals `descriptors`, `max_descriptors` and `trace` become the fields of `State`
  (`max_descriptors` is the length of the table: `interpose_init` sets both together and
  nothing else writes either).
* Results of the operating system (the real `open`, `read`, `stat`, `realpath`, ...) are
  arguments of the handlers.
* C undefined behaviour that the code can reach is a `Fault`: indexing `descriptors` outside
  the allocated block, and printing to or closing a stream that was already closed.
* `size_t` counters are natural numbers reduced modulo `2 ^ 64`.
* Memory allocation (`calloc`, `strdup`) is assumed to succeed.
-/

namespace Interpose

/-! ## Data model -/

/-- Accounting record of one descriptor (`Descriptor` in interpose.c). -/
structure Descriptor where
  path : String
  bread : Nat
  bwrite : Nat
deriving DecidableEq, Repr

/-- Modulus of `size_t` arithmetic (LP64; the counters are printed with `%lu`). -/
def SIZE_MOD : Nat := 2 ^ 64

/-- Size of the path buffers (`BUFSIZ` of glibc). -/
def BUFSIZ : Int := 8192

/-- One `tprintf` call: the format used and its arguments. Values printed with `%lf` are carried
as the text the conversion produces. -/
inductive Line where
  | exe (path : String)
  | start (t : String)
  | file (path : String) (size bread bwrite : Nat)
  | utime (t : String)
  | stime (t : String)
  | verbatim (text : String)
  | stop (t : String)
deriving DecidableEq, Repr

/-- Text that `vfprintf` writes for a line. -/
def Line.text : Line → String
  | .exe p => "exe: " ++ p ++ "\n"
  | .start t => "start: " ++ t ++ "\n"
  | .file p size br bw =>
      "file: " ++ p ++ " " ++ toString size ++ " " ++ toString br ++ " " ++ toString bw ++ "\n"
  | .utime t => "utime: " ++ t ++ "\n"
  | .stime t => "stime: " ++ t ++ "\n"
  | .verbatim l => l
  | .stop t => "stop: " ++ t ++ "\n"

/-- Recogniser of a `file:` line. -/
def Line.isFile : Line → Bool
  | .file _ _ _ _ => true
  | _ => false

/-- The stream behind the `trace` pointer: whether it is still open, and what was printed. -/
structure FILE where
  isOpen : Bool
  lines : List Line
deriving DecidableEq, Repr

/-- Messages written to the host's `stderr`. -/
inductive Diag where
  | noPrefix
  | noTraceFile
  | realpath (path : String)
  | readlink (fd : Int)
  | tooLong (fd : Int)
  | stat (path : String)
  | perror (what : String)
deriving DecidableEq, Repr

/-- Undefined behaviour reached by the code. -/
inductive Fault where
  | bounds (fd : Int)
  | stream
deriving DecidableEq, Repr

/-- The global variables of the library. -/
structure State where
  descriptors : List (Option Descriptor)
  trace : Option FILE
  stderr : List Diag
deriving DecidableEq, Repr

/-- Globals before the constructor runs: `descriptors = NULL`, `max_descriptors = 0`,
`trace = NULL`. -/
def State.start : State := ⟨[], none, []⟩

/-- Value of the global `max_descriptors`. -/
def max_descriptors (s : State) : Int := s.descriptors.length

/-- Everything printed to the trace file so far. -/
def emitted (s : State) : List Line :=
  match s.trace with
  | none => []
  | some f => f.lines

/-- Result of `stat(path, &st)`: `none` when it fails, else `st.st_size`. -/
abbrev Stat := String → Option Nat

/-- Read `descriptors[fd]`. -/
def index (s : State) (fd : Int) : Except Fault (Option Descriptor) :=
  if 0 ≤ fd ∧ fd < max_descriptors s then .ok (s.descriptors.getD fd.toNat none)
  else .error (.bounds fd)

/-- The state with slot `i` of the table replaced by `v`. -/
def setSlot (s : State) (i : Nat) (v : Option Descriptor) : State :=
  { s with descriptors := s.descriptors.set i v }

/-- Write `descriptors[fd] = v`. -/
def store (s : State) (fd : Int) (v : Option Descriptor) : Except Fault State :=
  if 0 ≤ fd ∧ fd < max_descriptors s then .ok (setSlot s fd.toNat v)
  else .error (.bounds fd)

/-! ## Trace file -/

/-- Environment of the constructor. -/
structure Env where
  kickstart : Option String
  pid : Nat
  fopen_ok : String → Bool
  rlim_max : Nat
  now : String

/-- Open the trace file (`topen`). -/
def topen (s : State) (e : Env) : Int × State :=
  match e.kickstart with
  | none => (-1, { s with stderr := s.stderr ++ [.noPrefix] })
  | some p =>
    let filename := p ++ "." ++ toString e.pid
    if e.fopen_ok filename then (0, { s with trace := some ⟨true, []⟩ })
    else (-1, { s with stderr := s.stderr ++ [.noTraceFile] })

/-- Print something to the trace file if it is open (`tprintf`). -/
def tprintf (s : State) (l : Line) : Except Fault (Int × State) :=
  match s.trace with
  | none => .ok (0, s)
  | some f =>
    if f.isOpen then .ok ((l.text.length : Int), { s with trace := some { f with lines := f.lines ++ [l] } })
    else .error .stream

/-- Close trace file (`tclose`). -/
def tclose (s : State) : Except Fault (Int × State) :=
  match s.trace with
  | none => .ok (0, s)
  | some f =>
    if f.isOpen then .ok (0, { s with trace := some { f with isOpen := false } })
    else .error .stream

/-! ## String helpers -/

/-- Offset of the first occurrence of `needle` in `hay` (`strstr`). -/
def strstr : List Char → List Char → Option Nat
  | [], needle => if needle.isPrefixOf [] then some 0 else none
  | c :: hay, needle =>
    if needle.isPrefixOf (c :: hay) then some 0
    else (strstr hay needle).map (· + 1)

/-- Return 1 if line begins with tok (`startswith`). -/
def startswith (line tok : String) : Bool :=
  strstr line.data tok.data == some 0

/-! ## Descriptor table -/

/-- Register a descriptor (`trace_file`). -/
def trace_file (s : State) (path : String) (fd : Int) : Except Fault State :=
  if startswith path "/lib" ||
     startswith path "/usr" ||
     startswith path "/dev" ||
     startswith path "/etc" ||
     startswith path "/proc" ||
     startswith path "/sys" then
    .ok s
  else
    store s fd (some ⟨path, 0, 0⟩)

/-- Canonicalise by name, then register (`trace_open`); `full` is the result of `realpath`. -/
def trace_open (s : State) (path : String) (full : Option String) (fd : Int) :
    Except Fault State :=
  match full with
  | none => .ok { s with stderr := s.stderr ++ [.realpath path] }
  | some fullpath => trace_file s fullpath fd

/-- Canonicalise by descriptor, then register (`trace_openat`); `len` and `fullpath` are the
result of `readlink` on `/proc/<pid>/fd/<fd>`. -/
def trace_openat (s : State) (fd : Int) (len : Int) (fullpath : String) : Except Fault State :=
  if len ≤ 0 then .ok { s with stderr := s.stderr ++ [.readlink fd] }
  else if len = BUFSIZ then .ok { s with stderr := s.stderr ++ [.tooLong fd] }
  else trace_file s fullpath fd

/-- Addition of a signed amount to a `size_t` counter. -/
def addSize (n : Nat) (amount : Int) : Nat := (((n : Int) + amount) % (SIZE_MOD : Int)).toNat

/-- Account bytes read (`trace_read`). -/
def trace_read (s : State) (fd : Int) (amount : Int) : Except Fault State :=
  match index s fd with
  | .error e => .error e
  | .ok none => .ok s
  | .ok (some d) => store s fd (some { d with bread := addSize d.bread amount })

/-- Account bytes written (`trace_write`). -/
def trace_write (s : State) (fd : Int) (amount : Int) : Except Fault State :=
  match index s fd with
  | .error e => .error e
  | .ok none => .ok s
  | .ok (some d) => store s fd (some { d with bwrite := addSize d.bwrite amount })

/-- Retire a descriptor (`trace_close`). -/
def trace_close (s : State) (fd : Int) (stat : Stat) : Except Fault State :=
  match index s fd with
  | .error e => .error e
  | .ok none => .ok s
  | .ok (some f) =>
    match stat f.path with
    | none => .ok { s with stderr := s.stderr ++ [.stat f.path] }
    | some st_size =>
      match tprintf s (.file f.path st_size f.bread f.bwrite) with
      | .error e => .error e
      | .ok (_, s1) => store s1 fd none

/-! ## Process snapshot -/

/-- What the library finds when it opens a file under `/proc`. -/
inductive ProcFile (α : Type) where
  | missing
  | unreadable
  | content (c : α)

/-- Environment of the destructor. -/
structure ProcFs where
  stat : Stat
  exe : Option String
  status : ProcFile (List String)
  cpu : ProcFile (String × String)
  io : ProcFile (List String)
  now : String

/-- Print each line for which `keep` holds (the `fgets` loops of `read_status` and `read_io`). -/
def passThrough (keep : String → Bool) : State → List String → Except Fault State
  | s, [] => .ok s
  | s, line :: rest =>
    if keep line then
      match tprintf s (.verbatim line) with
      | .error e => .error e
      | .ok (_, s1) => passThrough keep s1 rest
    else passThrough keep s rest

/-- Read /proc/self/exe to get path to executable (`read_exe`). -/
def read_exe (s : State) (p : ProcFs) : Except Fault State :=
  match p.exe with
  | none => .ok { s with stderr := s.stderr ++ [.perror "readlink /proc/self/exe"] }
  | some exe => (tprintf s (.exe exe)).map Prod.snd

/-- Read useful information from /proc/self/status (`read_status`). -/
def read_status (s : State) (p : ProcFs) : Except Fault State :=
  match p.status with
  | .missing => .ok s
  | .unreadable => .ok { s with stderr := s.stderr ++ [.perror "fopen /proc/self/status"] }
  | .content lines =>
    passThrough (fun line =>
      startswith line "Pid" || startswith line "PPid" || startswith line "Tgid" ||
      startswith line "VmPeak" || startswith line "VmHWM" || startswith line "Threads") s lines

/-- Read /proc/self/stat to get CPU usage (`read_stat`); the two strings are `utime / clocks`
and `stime / clocks` as `%lf` prints them. -/
def read_stat (s : State) (p : ProcFs) : Except Fault State :=
  match p.cpu with
  | .missing => .ok s
  | .unreadable => .ok { s with stderr := s.stderr ++ [.perror "fopen /proc/self/stat"] }
  | .content (real_utime, real_stime) =>
    match tprintf s (.utime real_utime) with
    | .error e => .error e
    | .ok (_, s1) => (tprintf s1 (.stime real_stime)).map Prod.snd

/-- Read /proc/self/io to get I/O usage (`read_io`). -/
def read_io (s : State) (p : ProcFs) : Except Fault State :=
  match p.io with
  | .missing => .ok s
  | .unreadable => .ok { s with stderr := s.stderr ++ [.perror "fopen /proc/self/io"] }
  | .content lines =>
    passThrough (fun line =>
      startswith line "rchar" || startswith line "wchar" || startswith line "syscr" ||
      startswith line "syscw" || startswith line "read_bytes" ||
      startswith line "write_bytes" || startswith line "cancelled_write_bytes") s lines

/-! ## Lifecycle hooks -/

/-- Conversion of `rlim_max` to `int`. -/
def toInt32 (n : Nat) : Int :=
  if n % 2 ^ 32 < 2 ^ 31 then ((n % 2 ^ 32 : Nat) : Int) else ((n % 2 ^ 32 : Nat) : Int) - 2 ^ 32

/-- Library initialization function (`interpose_init`). -/
def interpose_init (e : Env) : Except Fault State :=
  let s := (topen State.start e).2
  let max := toInt32 e.rlim_max
  let s := { s with descriptors := List.replicate max.toNat none }
  (tprintf s (.start e.now)).map Prod.snd

/-- The loop `for (i = ...; i < max_descriptors; i++)` of `interpose_fini`, with `n` iterations
left. -/
def fini_loop (stat : Stat) : Nat → Nat → State → Except Fault State
  | 0, _, s => .ok s
  | n + 1, i, s =>
    match index s i with
    | .error e => .error e
    | .ok none => fini_loop stat n (i + 1) s
    | .ok (some _) =>
      match trace_close s i stat with
      | .error e => .error e
      | .ok s1 => fini_loop stat n (i + 1) s1

/-- Library finalizer function (`interpose_fini`). -/
def interpose_fini (s : State) (p : ProcFs) : Except Fault State :=
  match fini_loop p.stat (max_descriptors s).toNat 0 s with
  | .error e => .error e
  | .ok s1 =>
  match read_exe s1 p with
  | .error e => .error e
  | .ok s2 =>
  match read_status s2 p with
  | .error e => .error e
  | .ok s3 =>
  match read_stat s3 p with
  | .error e => .error e
  | .ok s4 =>
  match read_io s4 p with
  | .error e => .error e
  | .ok s5 =>
  match tprintf s5 (.stop p.now) with
  | .error e => .error e
  | .ok (_, s6) => (tclose s6).map Prod.snd

/-! ## Interposed functions

Each handler takes the result of the real implementation (`rc`, or `f` for a stream: `none` is
`NULL`, `some fd` a stream whose `fileno` is `fd`) and returns it with the new state. -/

/-- Handler `open`. -/
def open_ (s : State) (path : String) (rc : Int) (full : Option String) :
    Except Fault (Int × State) :=
  if rc ≥ 0 then (trace_open s path full rc).map fun s1 => (rc, s1) else .ok (rc, s)

/-- Handler `open64`. -/
def open64 (s : State) (path : String) (rc : Int) (full : Option String) :
    Except Fault (Int × State) :=
  if rc ≥ 0 then (trace_open s path full rc).map fun s1 => (rc, s1) else .ok (rc, s)

/-- Handler `openat`. -/
def openat (s : State) (rc : Int) (len : Int) (fullpath : String) : Except Fault (Int × State) :=
  if rc ≥ 0 then (trace_openat s rc len fullpath).map fun s1 => (rc, s1) else .ok (rc, s)

/-- Handler `openat64`. -/
def openat64 (s : State) (rc : Int) (len : Int) (fullpath : String) :
    Except Fault (Int × State) :=
  if rc ≥ 0 then (trace_openat s rc len fullpath).map fun s1 => (rc, s1) else .ok (rc, s)

/-- Handler `creat`. -/
def creat (s : State) (path : String) (rc : Int) (full : Option String) :
    Except Fault (Int × State) :=
  if rc ≥ 0 then (trace_open s path full rc).map fun s1 => (rc, s1) else .ok (rc, s)

/-- Handler `creat64`. -/
def creat64 (s : State) (path : String) (rc : Int) (full : Option String) :
    Except Fault (Int × State) :=
  if rc ≥ 0 then (trace_open s path full rc).map fun s1 => (rc, s1) else .ok (rc, s)

/-- Handler `fopen`. -/
def fopen (s : State) (path : String) (f : Option Int) (full : Option String) :
    Except Fault (Option Int × State) :=
  match f with
  | some fileno => (trace_open s path full fileno).map fun s1 => (f, s1)
  | none => .ok (f, s)

/-- Handler `fopen64`. -/
def fopen64 (s : State) (path : String) (f : Option Int) (full : Option String) :
    Except Fault (Option Int × State) :=
  match f with
  | some fileno => (trace_open s path full fileno).map fun s1 => (f, s1)
  | none => .ok (f, s)

/-- Handler `freopen`. -/
def freopen (s : State) (path : String) (f : Option Int) (full : Option String) :
    Except Fault (Option Int × State) :=
  match f with
  | some fileno => (trace_open s path full fileno).map fun s1 => (f, s1)
  | none => .ok (f, s)

/-- Handler `freopen64`. -/
def freopen64 (s : State) (path : String) (f : Option Int) (full : Option String) :
    Except Fault (Option Int × State) :=
  match f with
  | some fileno => (trace_open s path full fileno).map fun s1 => (f, s1)
  | none => .ok (f, s)

/-- Handler `close`: `trace_close` runs before the real `close`, whose result is `rc`. -/
def close (s : State) (fd : Int) (stat : Stat) (rc : Int) : Except Fault (Int × State) :=
  (trace_close s fd stat).map fun s1 => (rc, s1)

/-- Handler `fclose`: `fp` is `none` for `NULL`, else the `fileno` of the stream. -/
def fclose (s : State) (fp : Option Int) (stat : Stat) (rc : Int) : Except Fault (Int × State) :=
  match fp with
  | some fileno => (trace_close s fileno stat).map fun s1 => (rc, s1)
  | none => .ok (rc, s)

/-- Handler `read`. -/
def read (s : State) (fd : Int) (rc : Int) : Except Fault (Int × State) :=
  if rc > 0 then (trace_read s fd rc).map fun s1 => (rc, s1) else .ok (rc, s)

/-- Handler `write`. -/
def write (s : State) (fd : Int) (rc : Int) : Except Fault (Int × State) :=
  if rc > 0 then (trace_write s fd rc).map fun s1 => (rc, s1) else .ok (rc, s)

/-! ## Sequences of calls -/

/-- One call of the host into an interposed function, with what the system answered. -/
inductive Call where
  | open (path : String) (rc : Int) (full : Option String)
  | open64 (path : String) (rc : Int) (full : Option String)
  | openat (rc : Int) (len : Int) (fullpath : String)
  | openat64 (rc : Int) (len : Int) (fullpath : String)
  | creat (path : String) (rc : Int) (full : Option String)
  | creat64 (path : String) (rc : Int) (full : Option String)
  | fopen (path : String) (f : Option Int) (full : Option String)
  | fopen64 (path : String) (f : Option Int) (full : Option String)
  | freopen (path : String) (f : Option Int) (full : Option String)
  | freopen64 (path : String) (f : Option Int) (full : Option String)
  | close (fd : Int) (stat : Stat) (rc : Int)
  | fclose (fp : Option Int) (stat : Stat) (rc : Int)
  | read (fd : Int) (rc : Int)
  | write (fd : Int) (rc : Int)

/-- Value handed back to the host: an `int`/`ssize_t`, or a stream. -/
inductive Ret where
  | int (rc : Int)
  | stream (f : Option Int)
deriving DecidableEq, Repr

/-- What the real implementation returned. -/
def Call.real : Call → Ret
  | .open _ rc _ | .open64 _ rc _ | .openat rc _ _ | .openat64 rc _ _ => .int rc
  | .creat _ rc _ | .creat64 _ rc _ | .close _ _ rc | .fclose _ _ rc => .int rc
  | .read _ rc | .write _ rc => .int rc
  | .fopen _ f _ | .fopen64 _ f _ | .freopen _ f _ | .freopen64 _ f _ => .stream f

/-- Dispatch of a call to its handler. -/
def handle (s : State) : Call → Except Fault (Ret × State)
  | .open p rc full => (open_ s p rc full).map fun r => (.int r.1, r.2)
  | .open64 p rc full => (open64 s p rc full).map fun r => (.int r.1, r.2)
  | .openat rc len full => (openat s rc len full).map fun r => (.int r.1, r.2)
  | .openat64 rc len full => (openat64 s rc len full).map fun r => (.int r.1, r.2)
  | .creat p rc full => (creat s p rc full).map fun r => (.int r.1, r.2)
  | .creat64 p rc full => (creat64 s p rc full).map fun r => (.int r.1, r.2)
  | .fopen p f full => (fopen s p f full).map fun r => (.stream r.1, r.2)
  | .fopen64 p f full => (fopen64 s p f full).map fun r => (.stream r.1, r.2)
  | .freopen p f full => (freopen s p f full).map fun r => (.stream r.1, r.2)
  | .freopen64 p f full => (freopen64 s p f full).map fun r => (.stream r.1, r.2)
  | .close fd stat rc => (close s fd stat rc).map fun r => (.int r.1, r.2)
  | .fclose fp stat rc => (fclose s fp stat rc).map fun r => (.int r.1, r.2)
  | .read fd rc => (read s fd rc).map fun r => (.int r.1, r.2)
  | .write fd rc => (write s fd rc).map fun r => (.int r.1, r.2)

/-- State after one call. -/
def step (s : State) (c : Call) : Except Fault State := (handle s c).map Prod.snd

/-- State after a sequence of calls. -/
def run : State → List Call → Except Fault State
  | s, [] => .ok s
  | s, c :: cs =>
    match step s c with
    | .error e => .error e
    | .ok s1 => run s1 cs

/-- Values returned to the host by a sequence of calls, with the final state. -/
def runRets : State → List Call → Except Fault (List Ret × State)
  | s, [] => .ok ([], s)
  | s, c :: cs =>
    match handle s c with
    | .error e => .error e
    | .ok (r, s1) => (runRets s1 cs).map fun p => (r :: p.1, p.2)

/-- States the process can be in: after the constructor, after any interposed call, after the
destructor. -/
inductive Reachable : State → Prop where
  | init (e : Env) (s : State) : interpose_init e = .ok s → Reachable s
  | call (s : State) (c : Call) (s1 : State) : Reachable s → step s c = .ok s1 → Reachable s1
  | fini (s : State) (p : ProcFs) (s1 : State) :
      Reachable s → interpose_fini s p = .ok s1 → Reachable s1

/-! ## Vocabulary of the specification -/

/-- The filtered prefixes. -/
def filteredPrefixes : List String := ["/lib", "/usr", "/dev", "/etc", "/proc", "/sys"]

/-- A path begins with one of the filtered prefixes. -/
def Filtered (path : String) : Prop := ∃ p ∈ filteredPrefixes, p.data <+: path.data

instance (path : String) : Decidable (Filtered path) := by
  unfold Filtered
  infer_instance

/-- Slot `fd` of the table holds the record `d`. -/
def Holds (s : State) (fd : Int) (d : Descriptor) : Prop := index s fd = .ok (some d)

/-- Slot `fd` exists and is empty. -/
def Empty (s : State) (fd : Int) : Prop := index s fd = .ok none

/-- No record in the table and no `file:` line in the trace names a filtered path. -/
def Clean (s : State) : Prop :=
  (∀ d, some d ∈ s.descriptors → ¬ Filtered d.path) ∧
  (∀ p sz br bw, Line.file p sz br bw ∈ emitted s → ¬ Filtered p)

/-- Descriptor `fd` and path an open-like call registers when the path is tracked. -/
def Call.registers : Call → Option (Int × String)
  | .open _ rc full | .open64 _ rc full | .creat _ rc full | .creat64 _ rc full =>
    if rc ≥ 0 then full.map fun p => (rc, p) else none
  | .openat rc len full | .openat64 rc len full =>
    if rc ≥ 0 ∧ 0 < len ∧ len ≠ BUFSIZ then some (rc, full) else none
  | .fopen _ f full | .fopen64 _ f full | .freopen _ f full | .freopen64 _ f full =>
    match f, full with
    | some fd, some p => some (fd, p)
    | _, _ => none
  | _ => none

/-- A `read` or `write` call whose descriptor, when the real call succeeded, lies within a table
of `max` slots. -/
def Call.isReadWrite (max : Int) : Call → Bool
  | .read fd rc | .write fd rc => decide (rc ≤ 0 ∨ (0 ≤ fd ∧ fd < max))
  | _ => false

/-- Every descriptor the call makes the library look up lies within a table of `max` slots. -/
def Call.inTable (max : Int) : Call → Bool
  | .open _ rc _ | .open64 _ rc _ | .creat _ rc _ | .creat64 _ rc _ => decide (rc < max)
  | .openat rc _ _ | .openat64 rc _ _ => decide (rc < max)
  | .fopen _ f _ | .fopen64 _ f _ | .freopen _ f _ | .freopen64 _ f _ =>
    match f with
    | none => true
    | some fd => decide (0 ≤ fd ∧ fd < max)
  | .close fd _ _ => decide (0 ≤ fd ∧ fd < max)
  | .fclose fp _ _ =>
    match fp with
    | none => true
    | some fd => decide (0 ≤ fd ∧ fd < max)
  | .read fd rc | .write fd rc => decide (rc ≤ 0 ∨ (0 ≤ fd ∧ fd < max))

/-- Sum of the positive results of the `read` calls on `fd`. -/
def readSum (fd : Int) : List Call → Nat
  | [] => 0
  | .read g rc :: cs => (if g = fd ∧ rc > 0 then rc.toNat else 0) + readSum fd cs
  | _ :: cs => readSum fd cs

/-- Sum of the positive results of the `write` calls on `fd`. -/
def writeSum (fd : Int) : List Call → Nat
  | [] => 0
  | .write g rc :: cs => (if g = fd ∧ rc > 0 then rc.toNat else 0) + writeSum fd cs
  | _ :: cs => writeSum fd cs

/-- Records still in the table, in slot order. -/
def live (s : State) : List Descriptor := s.descriptors.filterMap id

/-- The `file:` line `trace_close` prints for a record whose file has the given size. -/
def fileLine (size : String → Nat) (d : Descriptor) : Line :=
  .file d.path (size d.path) d.bread d.bwrite

/-- Between `s` and `s1` the table is unchanged, the trace file stays open and only lines other
than `file:` lines were appended to it. -/
def Appends (s s1 : State) : Prop :=
  s1.descriptors = s.descriptors ∧
  ∃ ls extra, s.trace = some ⟨true, ls⟩ ∧ s1.trace = some ⟨true, ls ++ extra⟩ ∧
    ∀ l ∈ extra, l.isFile = false

/-- State after the constructor and then a sequence of calls. -/
def after (e : Env) (cs : List Call) : Except Fault State :=
  match interpose_init e with
  | .error f => .error f
  | .ok s => run s cs

/-! ## Concrete environments and scenarios -/

/-- Tracing enabled, a table of 16 slots. -/
def envOn : Env := ⟨some "/tmp/ks", 42, fun _ => true, 16, "0.0"⟩

/-- `KICKSTART_PREFIX` unset, a table of 16 slots. -/
def envOff : Env := ⟨none, 42, fun _ => true, 16, "0.0"⟩

/-- Every `stat` succeeds with size 4096. -/
def statOk : Stat := fun _ => some 4096

/-- Every `stat` fails. -/
def statFail : Stat := fun _ => none

/-- A destructor environment without `/proc`, where every `stat` succeeds. -/
def procNone : ProcFs := ⟨statOk, none, .missing, .missing, .missing, "9.0"⟩

/-- The state right after the constructor in the environment `envOn`. -/
def freshOn : State := ⟨List.replicate 16 none, some ⟨true, [.start "0.0"]⟩, []⟩

/-- The state right after the constructor in the environment `envOff`. -/
def freshOff : State := ⟨List.replicate 16 none, none, [.noPrefix]⟩

/-- A table of four slots in which descriptor 3 holds the record of `/data/in.txt`. -/
def tableIn : State :=
  ⟨[none, none, none, some ⟨"/data/in.txt", 0, 0⟩], some ⟨true, [.start "0.0"]⟩, []⟩

/-- A table of four slots in which the record of descriptor 3 has read `2 ^ 64 - 1` bytes, the
largest value of a `size_t` counter. -/
def tableWrap : State :=
  ⟨[none, none, none, some ⟨"/data/in.txt", 18446744073709551615, 0⟩],
    some ⟨true, [.start "0.0"]⟩, []⟩

/-- Scenario: a filtered open, then a tracked open that is closed again. -/
def scenarioHosts : List Call :=
  [.open "/etc/hosts" 3 (some "/etc/hosts"), .open "in.txt" 4 (some "/data/in.txt"),
   .close 4 statOk 0]

/-- Scenario: descriptor 3 was opened on `/data/out.txt`, 200 bytes were written, and the
process exits without closing it. -/
def scenarioOut : List Call := [.open "out.txt" 3 (some "/data/out.txt"), .write 3 200]

/-! ## Basic facts -/

theorem strstr_zero (hay needle : List Char) :
    strstr hay needle = some 0 ↔ needle <+: hay := by
  cases hay with
  | nil =>
    unfold strstr
    by_cases h : needle.isPrefixOf [] = true
    · simp only [h, if_true, true_iff]; exact List.isPrefixOf_iff_prefix.mp h
    · simp only [h, if_false]
      constructor
      · intro h1; cases h1
      · intro h1; exact absurd (List.isPrefixOf_iff_prefix.mpr h1) h
  | cons c t =>
    unfold strstr
    by_cases h : needle.isPrefixOf (c :: t) = true
    · simp only [h, if_true, true_iff]; exact List.isPrefixOf_iff_prefix.mp h
    · simp only [h, if_false]
      constructor
      · intro h1
        cases hs : strstr t needle with
        | none => rw [hs] at h1; cases h1
        | some k => rw [hs] at h1; simp at h1
      · intro h1; exact absurd (List.isPrefixOf_iff_prefix.mpr h1) h

theorem startswith_iff (line tok : String) :
    startswith line tok = true ↔ tok.data <+: line.data := by
  unfold startswith
  rw [beq_iff_eq]
  exact strstr_zero _ _

theorem filtered_iff (path : String) :
    (startswith path "/lib" || startswith path "/usr" || startswith path "/dev" ||
      startswith path "/etc" || startswith path "/proc" || startswith path "/sys") = true
      ↔ Filtered path := by
  simp only [Bool.or_eq_true, startswith_iff, Filtered, filteredPrefixes, List.mem_cons,
    List.mem_singleton, exists_eq_or_imp, exists_eq_left, List.not_mem_nil, false_and, exists_false,
    or_false, or_assoc]

theorem trace_file_filtered (s : State) (path : String) (fd : Int) (h : Filtered path) :
    trace_file s path fd = .ok s := by
  unfold trace_file
  rw [if_pos ((filtered_iff path).mpr h)]

theorem trace_file_tracked (s : State) (path : String) (fd : Int) (h : ¬ Filtered path) :
    trace_file s path fd = store s fd (some ⟨path, 0, 0⟩) := by
  unfold trace_file
  rw [if_neg (fun hc => h ((filtered_iff path).mp hc))]

theorem inRange_of_index {s : State} {fd : Int} {o : Option Descriptor}
    (h : index s fd = .ok o) :
    (0 ≤ fd ∧ fd < max_descriptors s) ∧ s.descriptors.getD fd.toNat none = o := by
  unfold index at h
  split at h
  · rename_i hr
    exact ⟨hr, by injection h⟩
  · cases h

theorem index_of_inRange {s : State} {fd : Int} (h : 0 ≤ fd ∧ fd < max_descriptors s) :
    index s fd = .ok (s.descriptors.getD fd.toNat none) := by
  unfold index
  rw [if_pos h]

theorem store_of_inRange {s : State} {fd : Int} (v : Option Descriptor)
    (h : 0 ≤ fd ∧ fd < max_descriptors s) :
    store s fd v = .ok (setSlot s fd.toNat v) := by
  unfold store
  rw [if_pos h]

theorem max_toNat (s : State) : (max_descriptors s).toNat = s.descriptors.length := by
  unfold max_descriptors
  exact Int.toNat_natCast _

theorem toNat_lt_length {s : State} {fd : Int} (h : 0 ≤ fd ∧ fd < max_descriptors s) :
    fd.toNat < s.descriptors.length := by
  unfold max_descriptors at h
  omega

theorem index_set_same {s : State} {fd : Int} (v : Option Descriptor)
    (h : 0 ≤ fd ∧ fd < max_descriptors s) :
    index (setSlot s fd.toNat v) fd = .ok v := by
  have hl := toNat_lt_length h
  unfold index max_descriptors setSlot
  unfold max_descriptors at h
  simp only [List.length_set]
  rw [if_pos h]
  simp [List.getD_eq_getElem?_getD, List.getElem?_set, hl]

theorem index_set_other {s : State} {fd g : Int} (v : Option Descriptor)
    (h : 0 ≤ fd ∧ fd < max_descriptors s) (hg : g ≠ fd) :
    index (setSlot s fd.toNat v) g = index s g := by
  unfold index max_descriptors setSlot
  simp only [List.length_set]
  by_cases hr : 0 ≤ g ∧ g < (s.descriptors.length : Int)
  · rw [if_pos hr, if_pos hr]
    have hne : fd.toNat ≠ g.toNat := by omega
    simp [List.getD_eq_getElem?_getD, List.getElem?_set, hne]
  · rw [if_neg hr, if_neg hr]

theorem addSize_nonneg (n : Nat) {rc : Int} (h : 0 ≤ rc) :
    addSize n rc = (n + rc.toNat) % SIZE_MOD := by
  unfold addSize
  have : ((n : Int) + rc) = ((n + rc.toNat : Nat) : Int) := by
    push_cast
    omega
  rw [this, ← Int.natCast_mod, Int.toNat_natCast]

/-! ## Frame of `read` and `write` -/

theorem trace_read_holds {s : State} {fd : Int} {d : Descriptor} (amount : Int)
    (h : Holds s fd d) :
    trace_read s fd amount = store s fd (some { d with bread := addSize d.bread amount }) := by
  unfold trace_read
  rw [h]

theorem trace_write_holds {s : State} {fd : Int} {d : Descriptor} (amount : Int)
    (h : Holds s fd d) :
    trace_write s fd amount = store s fd (some { d with bwrite := addSize d.bwrite amount }) := by
  unfold trace_write
  rw [h]

theorem trace_read_empty {s : State} {fd : Int} (amount : Int) (h : Empty s fd) :
    trace_read s fd amount = .ok s := by
  unfold trace_read
  rw [h]

theorem trace_write_empty {s : State} {fd : Int} (amount : Int) (h : Empty s fd) :
    trace_write s fd amount = .ok s := by
  unfold trace_write
  rw [h]

/-- C7 (amended): the `read` handler leaves the state untouched when the real call returned
zero or an error (whatever `fd` is), or when `fd` is a slot of the table and that slot is empty;
when slot `fd` of the table holds a record and the result is positive, `bread` becomes
`(bread + rc) mod 2 ^ 64` (`size_t` addition) and neither the path, nor `bwrite`, nor any other
slot, nor the trace file changes. The `write` handler does the same with `bwrite`. -/
theorem read_write_frame (s : State) (fd rc : Int) :
    (rc ≤ 0 → read s fd rc = .ok (rc, s) ∧ write s fd rc = .ok (rc, s)) ∧
    (Empty s fd → read s fd rc = .ok (rc, s) ∧ write s fd rc = .ok (rc, s)) ∧
    (∀ d, Holds s fd d → 0 < rc →
      (∃ s1, read s fd rc = .ok (rc, s1) ∧
        Holds s1 fd ⟨d.path, (d.bread + rc.toNat) % 2 ^ 64, d.bwrite⟩ ∧
        (∀ g, g ≠ fd → index s1 g = index s g) ∧
        max_descriptors s1 = max_descriptors s ∧ s1.trace = s.trace ∧ s1.stderr = s.stderr) ∧
      (∃ s2, write s fd rc = .ok (rc, s2) ∧
        Holds s2 fd ⟨d.path, d.bread, (d.bwrite + rc.toNat) % 2 ^ 64⟩ ∧
        (∀ g, g ≠ fd → index s2 g = index s g) ∧
        max_descriptors s2 = max_descriptors s ∧ s2.trace = s.trace ∧ s2.stderr = s.stderr)) := by
  refine ⟨?_, ?_, ?_⟩
  · intro h
    have h1 : ¬ rc > 0 := by omega
    simp only [read, write, h1, if_false, and_self]
  · intro h
    unfold read write
    rw [trace_read_empty rc h, trace_write_empty rc h]
    by_cases h1 : rc > 0 <;> simp [h1, Except.map]
  · intro d hd hrc
    have hr := (inRange_of_index hd).1
    have h1 : rc > 0 := hrc
    have h0 : 0 ≤ rc := by omega
    constructor
    · refine ⟨setSlot s fd.toNat (some { d with bread := addSize d.bread rc }),
        ?_, ?_, ?_, ?_, rfl, rfl⟩
      · unfold read
        rw [if_pos h1, trace_read_holds rc hd, store_of_inRange _ hr]
        rfl
      · rw [addSize_nonneg _ h0]
        exact index_set_same _ hr
      · intro g hg
        exact index_set_other _ hr hg
      · simp [max_descriptors, setSlot]
    · refine ⟨setSlot s fd.toNat (some { d with bwrite := addSize d.bwrite rc }),
        ?_, ?_, ?_, ?_, rfl, rfl⟩
      · unfold write
        rw [if_pos h1, trace_write_holds rc hd, store_of_inRange _ hr]
        rfl
      · rw [addSize_nonneg _ h0]
        exact index_set_same _ hr
      · intro g hg
        exact index_set_other _ hr hg
      · simp [max_descriptors, setSlot]

/-- Witness of C7 (amended): in `tableIn`, `read(3) = 100` adds 100 to the bytes read of slot 3,
`read(3) = 0` and `read(2) = 100` leave the state as it is. -/
theorem read_write_frame_witness :
    Holds tableIn 3 ⟨"/data/in.txt", 0, 0⟩ ∧ Empty tableIn 2 ∧
    (∃ s1, read tableIn 3 100 = .ok (100, s1) ∧
      Holds s1 3 ⟨"/data/in.txt", (0 + (100 : Int).toNat) % 2 ^ 64, 0⟩) ∧
    read tableIn 3 0 = .ok (0, tableIn) ∧ read tableIn 2 100 = .ok (100, tableIn) :=
  ⟨rfl, rfl,
    (((read_write_frame tableIn 3 100).2.2 _ rfl (by decide)).1).elim
      (fun s1 h => ⟨s1, h.1, h.2.1⟩),
    ((read_write_frame tableIn 3 0).1 (by decide)).1,
    ((read_write_frame tableIn 2 100).2.1 rfl).1⟩

/-- Counterexample to C7 as stated. In `tableWrap` slot 3 holds a record with `2 ^ 64 - 1`
bytes read; after `read(3) = 1` the counter is 0, not `2 ^ 64`: the counter is a `size_t` and
the addition wraps. And in a table of 16 slots `read(16) = 5` does not leave the table
unchanged: `trace_read` indexes the table at 16, outside of it. -/
theorem read_counter_wraps_and_index_unchecked :
    Holds tableWrap 3 ⟨"/data/in.txt", 18446744073709551615, 0⟩ ∧
    (∃ s1, read tableWrap 3 1 = .ok (1, s1) ∧ Holds s1 3 ⟨"/data/in.txt", 0, 0⟩ ∧
      ¬ Holds s1 3 ⟨"/data/in.txt", 18446744073709551615 + 1, 0⟩) ∧
    (∃ s2, write tableIn 3 18446744073709551615 = .ok (18446744073709551615, s2) ∧
      write s2 3 1 = .ok (1, tableIn)) ∧
    max_descriptors freshOn = 16 ∧ read freshOn 16 5 = .error (.bounds 16) ∧
    write freshOn 16 5 = .error (.bounds 16) :=
  ⟨rfl,
    ⟨_, rfl, rfl, fun h => by
      have h0 : (0 : Nat) = 18446744073709551615 + 1 :=
        congrArg Descriptor.bread (Option.some.inj (Except.ok.inj h))
      exact absurd h0 (by decide)⟩,
    ⟨_, rfl, rfl⟩, rfl, rfl, rfl⟩

/-! ## Filtered paths never enter the table or the trace -/

theorem mem_of_holds {s : State} {fd : Int} {d : Descriptor} (h : Holds s fd d) :
    some d ∈ s.descriptors := by
  have h1 := (inRange_of_index h).2
  rw [List.getD_eq_getElem?_getD] at h1
  cases hg : s.descriptors[fd.toNat]? with
  | none => rw [hg] at h1; cases h1
  | some o =>
    rw [hg] at h1
    simp only [Option.getD_some] at h1
    subst h1
    exact List.getElem?_mem hg

theorem map_ok {α β : Type} {f : α → β} {x : Except Fault α} {b : β}
    (h : x.map f = .ok b) : ∃ a, x = .ok a ∧ f a = b := by
  cases x with
  | error e => cases h
  | ok a => exact ⟨a, rfl, by injection h⟩

theorem clean_setSlot {s : State} (i : Nat) {v : Option Descriptor} (h : Clean s)
    (hv : ∀ d, v = some d → ¬ Filtered d.path) : Clean (setSlot s i v) := by
  refine ⟨?_, h.2⟩
  intro d hd
  rcases List.mem_or_eq_of_mem_set hd with h1 | h1
  · exact h.1 d h1
  · exact hv d h1.symm

theorem clean_store {s s1 : State} {fd : Int} {v : Option Descriptor} (h : Clean s)
    (hv : ∀ d, v = some d → ¬ Filtered d.path) (hs : store s fd v = .ok s1) : Clean s1 := by
  unfold store at hs
  split at hs
  · injection hs with hs; subst hs; exact clean_setSlot _ h hv
  · cases hs

theorem clean_tprintf {s s1 : State} {l : Line} {n : Int} (h : Clean s)
    (hl : ∀ p sz br bw, l = .file p sz br bw → ¬ Filtered p)
    (hs : tprintf s l = .ok (n, s1)) : Clean s1 := by
  unfold tprintf at hs
  split at hs
  · injection hs with hs; injection hs with _ hs; subst hs; exact h
  · rename_i f hf
    split at hs
    · injection hs with hs; injection hs with _ hs; subst hs
      refine ⟨h.1, ?_⟩
      intro p sz br bw hm
      simp only [emitted, List.mem_append, List.mem_singleton] at hm
      rcases hm with hm | hm
      · apply h.2 p sz br bw
        simp only [emitted, hf]
        exact hm
      · exact hl p sz br bw hm.symm
    · cases hs

theorem clean_tprintf_other {s s1 : State} {l : Line} {n : Int} (h : Clean s)
    (hs : tprintf s l = .ok (n, s1)) (hl : l.isFile = false) : Clean s1 := by
  refine clean_tprintf h ?_ hs
  intro p sz br bw he
  subst he
  cases hl

theorem clean_trace_file {s s1 : State} {path : String} {fd : Int} (h : Clean s)
    (hs : trace_file s path fd = .ok s1) : Clean s1 := by
  by_cases hf : Filtered path
  · rw [trace_file_filtered _ _ _ hf] at hs
    injection hs with hs; subst hs; exact h
  · rw [trace_file_tracked _ _ _ hf] at hs
    refine clean_store h ?_ hs
    intro d hd
    injection hd with hd
    subst hd
    exact hf

theorem clean_trace_open {s s1 : State} {path : String} {full : Option String} {fd : Int}
    (h : Clean s) (hs : trace_open s path full fd = .ok s1) : Clean s1 := by
  unfold trace_open at hs
  split at hs
  · injection hs with hs; subst hs; exact h
  · exact clean_trace_file h hs

theorem clean_trace_openat {s s1 : State} {fd len : Int} {full : String}
    (h : Clean s) (hs : trace_openat s fd len full = .ok s1) : Clean s1 := by
  unfold trace_openat at hs
  split at hs
  · injection hs with hs; subst hs; exact h
  · split at hs
    · injection hs with hs; subst hs; exact h
    · exact clean_trace_file h hs

theorem clean_trace_read {s s1 : State} {fd amount : Int}
    (h : Clean s) (hs : trace_read s fd amount = .ok s1) : Clean s1 := by
  unfold trace_read at hs
  split at hs
  · cases hs
  · injection hs with hs; subst hs; exact h
  · rename_i d hd
    refine clean_store h ?_ hs
    intro d1 hd1
    injection hd1 with hd1
    subst hd1
    exact h.1 d (mem_of_holds hd)

theorem clean_trace_write {s s1 : State} {fd amount : Int}
    (h : Clean s) (hs : trace_write s fd amount = .ok s1) : Clean s1 := by
  unfold trace_write at hs
  split at hs
  · cases hs
  · injection hs with hs; subst hs; exact h
  · rename_i d hd
    refine clean_store h ?_ hs
    intro d1 hd1
    injection hd1 with hd1
    subst hd1
    exact h.1 d (mem_of_holds hd)

theorem clean_trace_close {s s1 : State} {fd : Int} {stat : Stat}
    (h : Clean s) (hs : trace_close s fd stat = .ok s1) : Clean s1 := by
  unfold trace_close at hs
  split at hs
  · cases hs
  · injection hs with hs; subst hs; exact h
  · rename_i d hd
    split at hs
    · injection hs with hs; subst hs; exact h
    · split at hs
      · cases hs
      · rename_i n s2 ht
        refine clean_store (clean_tprintf h ?_ ht) ?_ hs
        · intro p sz br bw he
          injection he with he
          subst he
          exact h.1 d (mem_of_holds hd)
        · intro d1 hd1; cases hd1

theorem clean_step {s s1 : State} {c : Call} (h : Clean s) (hs : step s c = .ok s1) :
    Clean s1 := by
  unfold step at hs
  obtain ⟨⟨r, s2⟩, hh, he⟩ := map_ok hs
  simp only at he
  subst he
  cases c with
  | «open» p rc full =>
    simp only [handle, open_] at hh
    obtain ⟨⟨r1, s3⟩, hh1, he1⟩ := map_ok hh
    injection he1 with _ he1; subst he1
    split at hh1
    · obtain ⟨s4, hh2, he2⟩ := map_ok hh1
      injection he2 with _ he2; subst he2
      exact clean_trace_open h hh2
    · injection hh1 with hh1; injection hh1 with _ hh1; subst hh1; exact h
  | open64 p rc full =>
    simp only [handle, open64] at hh
    obtain ⟨⟨r1, s3⟩, hh1, he1⟩ := map_ok hh
    injection he1 with _ he1; subst he1
    split at hh1
    · obtain ⟨s4, hh2, he2⟩ := map_ok hh1
      injection he2 with _ he2; subst he2
      exact clean_trace_open h hh2
    · injection hh1 with hh1; injection hh1 with _ hh1; subst hh1; exact h
  | creat p rc full =>
    simp only [handle, creat] at hh
    obtain ⟨⟨r1, s3⟩, hh1, he1⟩ := map_ok hh
    injection he1 with _ he1; subst he1
    split at hh1
    · obtain ⟨s4, hh2, he2⟩ := map_ok hh1
      injection he2 with _ he2; subst he2
      exact clean_trace_open h hh2
    · injection hh1 with hh1; injection hh1 with _ hh1; subst hh1; exact h
  | creat64 p rc full =>
    simp only [handle, creat64] at hh
    obtain ⟨⟨r1, s3⟩, hh1, he1⟩ := map_ok hh
    injection he1 with _ he1; subst he1
    split at hh1
    · obtain ⟨s4, hh2, he2⟩ := map_ok hh1
      injection he2 with _ he2; subst he2
      exact clean_trace_open h hh2
    · injection hh1 with hh1; injection hh1 with _ hh1; subst hh1; exact h
  | openat rc len full =>
    simp only [handle, openat] at hh
    obtain ⟨⟨r1, s3⟩, hh1, he1⟩ := map_ok hh
    injection he1 with _ he1; subst he1
    split at hh1
    · obtain ⟨s4, hh2, he2⟩ := map_ok hh1
      injection he2 with _ he2; subst he2
      exact clean_trace_openat h hh2
    · injection hh1 with hh1; injection hh1 with _ hh1; subst hh1; exact h
  | openat64 rc len full =>
    simp only [handle, openat64] at hh
    obtain ⟨⟨r1, s3⟩, hh1, he1⟩ := map_ok hh
    injection he1 with _ he1; subst he1
    split at hh1
    · obtain ⟨s4, hh2, he2⟩ := map_ok hh1
      injection he2 with _ he2; subst he2
      exact clean_trace_openat h hh2
    · injection hh1 with hh1; injection hh1 with _ hh1; subst hh1; exact h
  | fopen p f full =>
    simp only [handle, fopen] at hh
    obtain ⟨⟨r1, s3⟩, hh1, he1⟩ := map_ok hh
    injection he1 with _ he1; subst he1
    split at hh1
    · obtain ⟨s4, hh2, he2⟩ := map_ok hh1
      injection he2 with _ he2; subst he2
      exact clean_trace_open h hh2
    · injection hh1 with hh1; injection hh1 with _ hh1; subst hh1; exact h
  | fopen64 p f full =>
    simp only [handle, fopen64] at hh
    obtain ⟨⟨r1, s3⟩, hh1, he1⟩ := map_ok hh
    injection he1 with _ he1; subst he1
    split at hh1
    · obtain ⟨s4, hh2, he2⟩ := map_ok hh1
      injection he2 with _ he2; subst he2
      exact clean_trace_open h hh2
    · injection hh1 with hh1; injection hh1 with _ hh1; subst hh1; exact h
  | freopen p f full =>
    simp only [handle, freopen] at hh
    obtain ⟨⟨r1, s3⟩, hh1, he1⟩ := map_ok hh
    injection he1 with _ he1; subst he1
    split at hh1
    · obtain ⟨s4, hh2, he2⟩ := map_ok hh1
      injection he2 with _ he2; subst he2
      exact clean_trace_open h hh2
    · injection hh1 with hh1; injection hh1 with _ hh1; subst hh1; exact h
  | freopen64 p f full =>
    simp only [handle, freopen64] at hh
    obtain ⟨⟨r1, s3⟩, hh1, he1⟩ := map_ok hh
    injection he1 with _ he1; subst he1
    split at hh1
    · obtain ⟨s4, hh2, he2⟩ := map_ok hh1
      injection he2 with _ he2; subst he2
      exact clean_trace_open h hh2
    · injection hh1 with hh1; injection hh1 with _ hh1; subst hh1; exact h
  | close fd stat rc =>
    simp only [handle, close] at hh
    obtain ⟨⟨r1, s3⟩, hh1, he1⟩ := map_ok hh
    injection he1 with _ he1; subst he1
    obtain ⟨s4, hh2, he2⟩ := map_ok hh1
    injection he2 with _ he2; subst he2
    exact clean_trace_close h hh2
  | fclose fp stat rc =>
    simp only [handle, fclose] at hh
    obtain ⟨⟨r1, s3⟩, hh1, he1⟩ := map_ok hh
    injection he1 with _ he1; subst he1
    split at hh1
    · obtain ⟨s4, hh2, he2⟩ := map_ok hh1
      injection he2 with _ he2; subst he2
      exact clean_trace_close h hh2
    · injection hh1 with hh1; injection hh1 with _ hh1; subst hh1; exact h
  | read fd rc =>
    simp only [handle, read] at hh
    obtain ⟨⟨r1, s3⟩, hh1, he1⟩ := map_ok hh
    injection he1 with _ he1; subst he1
    split at hh1
    · obtain ⟨s4, hh2, he2⟩ := map_ok hh1
      injection he2 with _ he2; subst he2
      exact clean_trace_read h hh2
    · injection hh1 with hh1; injection hh1 with _ hh1; subst hh1; exact h
  | write fd rc =>
    simp only [handle, write] at hh
    obtain ⟨⟨r1, s3⟩, hh1, he1⟩ := map_ok hh
    injection he1 with _ he1; subst he1
    split at hh1
    · obtain ⟨s4, hh2, he2⟩ := map_ok hh1
      injection he2 with _ he2; subst he2
      exact clean_trace_write h hh2
    · injection hh1 with hh1; injection hh1 with _ hh1; subst hh1; exact h

theorem clean_passThrough (keep : String → Bool) (lines : List String) :
    ∀ {s s1 : State}, Clean s → passThrough keep s lines = .ok s1 → Clean s1 := by
  induction lines with
  | nil =>
    intro s s1 h hs
    unfold passThrough at hs
    injection hs with hs; subst hs; exact h
  | cons line rest ih =>
    intro s s1 h hs
    unfold passThrough at hs
    split at hs
    · split at hs
      · cases hs
      · rename_i n s2 ht
        exact ih (clean_tprintf_other h ht rfl) hs
    · exact ih h hs

theorem clean_read_exe {s s1 : State} {p : ProcFs} (h : Clean s)
    (hs : read_exe s p = .ok s1) : Clean s1 := by
  unfold read_exe at hs
  split at hs
  · injection hs with hs; subst hs; exact h
  · obtain ⟨⟨n, s2⟩, ht, he⟩ := map_ok hs
    simp only at he
    subst he
    exact clean_tprintf_other h ht rfl

theorem clean_read_status {s s1 : State} {p : ProcFs} (h : Clean s)
    (hs : read_status s p = .ok s1) : Clean s1 := by
  unfold read_status at hs
  split at hs
  · injection hs with hs; subst hs; exact h
  · injection hs with hs; subst hs; exact h
  · exact clean_passThrough _ _ h hs

theorem clean_read_stat {s s1 : State} {p : ProcFs} (h : Clean s)
    (hs : read_stat s p = .ok s1) : Clean s1 := by
  unfold read_stat at hs
  split at hs
  · injection hs with hs; subst hs; exact h
  · injection hs with hs; subst hs; exact h
  · split at hs
    · cases hs
    · rename_i n s2 ht
      obtain ⟨⟨n1, s3⟩, ht1, he⟩ := map_ok hs
      simp only at he
      subst he
      exact clean_tprintf_other (clean_tprintf_other h ht rfl) ht1 rfl

theorem clean_read_io {s s1 : State} {p : ProcFs} (h : Clean s)
    (hs : read_io s p = .ok s1) : Clean s1 := by
  unfold read_io at hs
  split at hs
  · injection hs with hs; subst hs; exact h
  · injection hs with hs; subst hs; exact h
  · exact clean_passThrough _ _ h hs

theorem clean_fini_loop (stat : Stat) (n : Nat) :
    ∀ (i : Nat) {s s1 : State}, Clean s → fini_loop stat n i s = .ok s1 → Clean s1 := by
  induction n with
  | zero =>
    intro i s s1 h hs
    unfold fini_loop at hs
    injection hs with hs; subst hs; exact h
  | succ n ih =>
    intro i s s1 h hs
    unfold fini_loop at hs
    split at hs
    · cases hs
    · exact ih _ h hs
    · split at hs
      · cases hs
      · rename_i s2 hc
        exact ih _ (clean_trace_close h hc) hs

theorem clean_tclose {s s1 : State} {n : Int} (h : Clean s)
    (hs : tclose s = .ok (n, s1)) : Clean s1 := by
  unfold tclose at hs
  split at hs
  · injection hs with hs; injection hs with _ hs; subst hs; exact h
  · rename_i f hf
    split at hs
    · injection hs with hs; injection hs with _ hs; subst hs
      refine ⟨h.1, ?_⟩
      intro p sz br bw hm
      apply h.2 p sz br bw
      simp only [emitted, hf]
      exact hm
    · cases hs

theorem clean_fini {s s1 : State} {p : ProcFs} (h : Clean s)
    (hs : interpose_fini s p = .ok s1) : Clean s1 := by
  unfold interpose_fini at hs
  split at hs
  · cases hs
  · rename_i a1 h1
    split at hs
    · cases hs
    · rename_i a2 h2
      split at hs
      · cases hs
      · rename_i a3 h3
        split at hs
        · cases hs
        · rename_i a4 h4
          split at hs
          · cases hs
          · rename_i a5 h5
            split at hs
            · cases hs
            · rename_i n a6 h6
              obtain ⟨⟨n1, a7⟩, h7, he⟩ := map_ok hs
              simp only at he
              subst he
              have c1 := clean_fini_loop _ _ _ h h1
              have c2 := clean_read_exe c1 h2
              have c3 := clean_read_status c2 h3
              have c4 := clean_read_stat c3 h4
              have c5 := clean_read_io c4 h5
              exact clean_tclose (clean_tprintf_other c5 h6 rfl) h7

theorem clean_init {e : Env} {s : State} (hs : interpose_init e = .ok s) : Clean s := by
  unfold interpose_init at hs
  obtain ⟨⟨n, s1⟩, ht, he⟩ := map_ok hs
  simp only at he
  subst he
  refine clean_tprintf_other ?_ ht rfl
  constructor
  · intro d hd
    simp only [List.mem_replicate] at hd
    cases hd.2
  · intro p sz br bw hm
    unfold topen at hm
    unfold emitted at hm
    split at hm
    · cases hm
    · rename_i f hf
      simp only at hf
      split at hf
      · cases hf
      · split at hf
        · simp only [State.start] at hf
          injection hf with hf
          subst hf
          cases hm
        · cases hf

theorem clean_of_reachable {s : State} (h : Reachable s) : Clean s := by
  induction h with
  | init e s hs => exact clean_init hs
  | call s c s1 _ hs ih => exact clean_step ih hs
  | fini s p s1 _ hs ih => exact clean_fini ih hs

theorem reachable_run (cs : List Call) :
    ∀ {s s1 : State}, Reachable s → run s cs = .ok s1 → Reachable s1 := by
  induction cs with
  | nil =>
    intro s s1 h hs
    unfold run at hs
    injection hs with hs; subst hs; exact h
  | cons c cs ih =>
    intro s s1 h hs
    unfold run at hs
    split at hs
    · cases hs
    · rename_i s2 h2
      exact ih (Reachable.call _ _ _ h h2) hs

theorem reachable_after {e : Env} {cs : List Call} {s : State} (h : after e cs = .ok s) :
    Reachable s := by
  unfold after at h
  split at h
  · cases h
  · rename_i s0 h0
    exact reachable_run cs (Reachable.init _ _ h0) h

theorem map_snd_int (x : Except Fault State) (rc : Int) :
    Except.map Prod.snd (Except.map (fun r => (Ret.int r.1, r.2))
      (Except.map (fun s1 => (rc, s1)) x)) = x := by
  cases x <;> rfl

theorem map_snd_stream (x : Except Fault State) (f : Option Int) :
    Except.map Prod.snd (Except.map (fun r => (Ret.stream r.1, r.2))
      (Except.map (fun s1 => (f, s1)) x)) = x := by
  cases x <;> rfl

theorem step_registers {c : Call} {fd : Int} {path : String} (s : State)
    (h : c.registers = some (fd, path)) : step s c = trace_file s path fd := by
  cases c with
  | «open» p rc full =>
    cases full with
    | none => simp [Call.registers] at h
    | some f =>
      simp only [Call.registers, Option.map_some'] at h
      split at h
      · rename_i hrc
        injection h with h; injection h with h1 h2; subst h1; subst h2
        simp only [step, handle, open_, hrc, if_true, trace_open]
        exact map_snd_int _ _
      · cases h
  | open64 p rc full =>
    cases full with
    | none => simp [Call.registers] at h
    | some f =>
      simp only [Call.registers, Option.map_some'] at h
      split at h
      · rename_i hrc
        injection h with h; injection h with h1 h2; subst h1; subst h2
        simp only [step, handle, open64, hrc, if_true, trace_open]
        exact map_snd_int _ _
      · cases h
  | creat p rc full =>
    cases full with
    | none => simp [Call.registers] at h
    | some f =>
      simp only [Call.registers, Option.map_some'] at h
      split at h
      · rename_i hrc
        injection h with h; injection h with h1 h2; subst h1; subst h2
        simp only [step, handle, creat, hrc, if_true, trace_open]
        exact map_snd_int _ _
      · cases h
  | creat64 p rc full =>
    cases full with
    | none => simp [Call.registers] at h
    | some f =>
      simp only [Call.registers, Option.map_some'] at h
      split at h
      · rename_i hrc
        injection h with h; injection h with h1 h2; subst h1; subst h2
        simp only [step, handle, creat64, hrc, if_true, trace_open]
        exact map_snd_int _ _
      · cases h
  | openat rc len full =>
    simp only [Call.registers] at h
    split at h
    · rename_i hrc
      injection h with h; injection h with h1 h2; subst h1; subst h2
      have h1 : ¬ len ≤ 0 := by omega
      simp only [step, handle, openat, hrc.1, if_true, trace_openat, h1, if_false, hrc.2.2]
      exact map_snd_int _ _
    · cases h
  | openat64 rc len full =>
    simp only [Call.registers] at h
    split at h
    · rename_i hrc
      injection h with h; injection h with h1 h2; subst h1; subst h2
      have h1 : ¬ len ≤ 0 := by omega
      simp only [step, handle, openat64, hrc.1, if_true, trace_openat, h1, if_false, hrc.2.2]
      exact map_snd_int _ _
    · cases h
  | fopen p f full =>
    cases f with
    | none => simp [Call.registers] at h
    | some g =>
      cases full with
      | none => simp [Call.registers] at h
      | some q =>
        simp only [Call.registers] at h
        injection h with h; injection h with h1 h2; subst h1; subst h2
        simp only [step, handle, fopen, trace_open]
        exact map_snd_stream _ _
  | fopen64 p f full =>
    cases f with
    | none => simp [Call.registers] at h
    | some g =>
      cases full with
      | none => simp [Call.registers] at h
      | some q =>
        simp only [Call.registers] at h
        injection h with h; injection h with h1 h2; subst h1; subst h2
        simp only [step, handle, fopen64, trace_open]
        exact map_snd_stream _ _
  | freopen p f full =>
    cases f with
    | none => simp [Call.registers] at h
    | some g =>
      cases full with
      | none => simp [Call.registers] at h
      | some q =>
        simp only [Call.registers] at h
        injection h with h; injection h with h1 h2; subst h1; subst h2
        simp only [step, handle, freopen, trace_open]
        exact map_snd_stream _ _
  | freopen64 p f full =>
    cases f with
    | none => simp [Call.registers] at h
    | some g =>
      cases full with
      | none => simp [Call.registers] at h
      | some q =>
        simp only [Call.registers] at h
        injection h with h; injection h with h1 h2; subst h1; subst h2
        simp only [step, handle, freopen64, trace_open]
        exact map_snd_stream _ _
  | close fd stat rc => simp [Call.registers] at h
  | fclose fp stat rc => simp [Call.registers] at h
  | read fd rc => simp [Call.registers] at h
  | write fd rc => simp [Call.registers] at h

/-- C3: in every reachable state no slot of the table holds a record whose path begins with
`/lib`, `/usr`, `/dev`, `/etc`, `/proc` or `/sys`, no `file:` line of the trace names such a
path, and an open-like call whose canonical path is filtered (for instance `/etc/hosts`)
leaves the state as it was. -/
theorem filtered_paths_never_tracked (s : State) (h : Reachable s) :
    (∀ d, some d ∈ s.descriptors → ¬ Filtered d.path) ∧
    (∀ fd d, Holds s fd d → ¬ Filtered d.path) ∧
    (∀ p sz br bw, Line.file p sz br bw ∈ emitted s → ¬ Filtered p) ∧
    (∀ c fd path, c.registers = some (fd, path) → Filtered path → step s c = .ok s) ∧
    (∀ c fd, c.registers = some (fd, "/etc/hosts") → step s c = .ok s) := by
  have hc := clean_of_reachable h
  refine ⟨hc.1, fun fd d hd => hc.1 d (mem_of_holds hd), hc.2, ?_, ?_⟩
  · intro c fd path hr hf
    rw [step_registers s hr, trace_file_filtered _ _ _ hf]
  · intro c fd hr
    rw [step_registers s hr]
    rfl

/-- Witness of C3: the invariant at the state reached by opening `/etc/hosts`, then opening
and closing `/data/in.txt`. -/
theorem filtered_paths_never_tracked_witness :
    ∃ s, after envOn scenarioHosts = .ok s ∧
      emitted s = [.start "0.0", .file "/data/in.txt" 4096 0 0] ∧
      ((∀ d, some d ∈ s.descriptors → ¬ Filtered d.path) ∧
       (∀ fd d, Holds s fd d → ¬ Filtered d.path) ∧
       (∀ p sz br bw, Line.file p sz br bw ∈ emitted s → ¬ Filtered p) ∧
       (∀ c fd path, c.registers = some (fd, path) → Filtered path → step s c = .ok s) ∧
       (∀ c fd, c.registers = some (fd, "/etc/hosts") → step s c = .ok s)) :=
  ⟨_, rfl, rfl, filtered_paths_never_tracked _ (@reachable_after envOn scenarioHosts _ rfl)⟩

/-! ## One `file:` line per tracked open/close span -/

theorem run_append (xs ys : List Call) :
    ∀ s : State, run s (xs ++ ys) =
      match run s xs with
      | .error e => .error e
      | .ok s1 => run s1 ys := by
  induction xs with
  | nil => intro s; rfl
  | cons x xs ih =>
    intro s
    simp only [List.cons_append, run]
    cases step s x with
    | error e => rfl
    | ok s1 => exact ih s1

theorem step_read_nonpos (s : State) (fd : Int) {rc : Int} (h : rc ≤ 0) :
    step s (.read fd rc) = .ok s := by
  have h1 : ¬ rc > 0 := by omega
  simp only [step, handle, read, h1, if_false]
  rfl

theorem step_write_nonpos (s : State) (fd : Int) {rc : Int} (h : rc ≤ 0) :
    step s (.write fd rc) = .ok s := by
  have h1 : ¬ rc > 0 := by omega
  simp only [step, handle, write, h1, if_false]
  rfl

theorem step_read_pos (s : State) (fd : Int) {rc : Int} (h : 0 < rc) :
    step s (.read fd rc) = trace_read s fd rc := by
  have h1 : rc > 0 := h
  simp only [step, handle, read, h1, if_true]
  exact map_snd_int _ _

theorem step_write_pos (s : State) (fd : Int) {rc : Int} (h : 0 < rc) :
    step s (.write fd rc) = trace_write s fd rc := by
  have h1 : rc > 0 := h
  simp only [step, handle, write, h1, if_true]
  exact map_snd_int _ _

theorem step_close (s : State) (fd : Int) (stat : Stat) (rc : Int) :
    step s (.close fd stat rc) = trace_close s fd stat := by
  simp only [step, handle, close]
  exact map_snd_int _ _

theorem holds_or_empty {s : State} {fd : Int} (h : 0 ≤ fd ∧ fd < max_descriptors s) :
    Empty s fd ∨ ∃ d, Holds s fd d := by
  unfold Empty Holds
  rw [index_of_inRange h]
  cases s.descriptors.getD fd.toNat none with
  | none => exact Or.inl rfl
  | some d => exact Or.inr ⟨d, rfl⟩

theorem mod_add_mod_size (a b c : Nat) (h : a % SIZE_MOD = b % SIZE_MOD) :
    (a + c) % SIZE_MOD = (b + c) % SIZE_MOD := by
  rw [Nat.add_mod a c, h, ← Nat.add_mod]

theorem run_readwrites (fd : Int) (path : String) (rws : List Call) :
    ∀ (s : State) (br bw : Nat), Holds s fd ⟨path, br, bw⟩ →
      rws.all (fun r => r.isReadWrite (max_descriptors s)) = true →
      ∃ s1 br1 bw1, run s rws = .ok s1 ∧ Holds s1 fd ⟨path, br1, bw1⟩ ∧
        br1 % SIZE_MOD = (br + readSum fd rws) % SIZE_MOD ∧
        bw1 % SIZE_MOD = (bw + writeSum fd rws) % SIZE_MOD ∧
        (br < SIZE_MOD → br1 < SIZE_MOD) ∧ (bw < SIZE_MOD → bw1 < SIZE_MOD) ∧
        s1.trace = s.trace ∧ max_descriptors s1 = max_descriptors s := by
  induction rws with
  | nil =>
    intro s br bw hd _
    exact ⟨s, br, bw, rfl, hd, rfl, rfl, id, id, rfl, rfl⟩
  | cons r rest ih =>
    intro s br bw hd hall
    rw [List.all_cons, Bool.and_eq_true] at hall
    obtain ⟨hr, hrest⟩ := hall
    have hfd := (inRange_of_index hd).1
    cases r with
    | read g rc =>
      simp only [Call.isReadWrite, decide_eq_true_eq] at hr
      by_cases hpos : 0 < rc
      · have hg : 0 ≤ g ∧ g < max_descriptors s := by
          rcases hr with h | h
          · omega
          · exact h
        have h0 : 0 ≤ rc := by omega
        by_cases hgf : g = fd
        · subst hgf
          obtain ⟨s1, br1, bw1, h1, h2, h3, h4, h5, h6, h7, h8⟩ :=
            ih (setSlot s g.toNat (some ⟨path, addSize br rc, bw⟩)) (addSize br rc) bw
              (index_set_same _ hg) (by simpa [max_descriptors, setSlot] using hrest)
          refine ⟨s1, br1, bw1, ?_, h2, ?_, h4, ?_, h6, h7, ?_⟩
          · simp only [run, step_read_pos s g hpos, trace_read_holds rc hd,
              store_of_inRange _ hg]
            exact h1
          · rw [h3, addSize_nonneg _ h0]
            have hp : g = g ∧ rc > 0 := ⟨rfl, hpos⟩
            simp only [readSum, hp, and_self, if_true]
            rw [← Nat.add_assoc]
            exact mod_add_mod_size _ _ _ (Nat.mod_mod _ _)
          · intro _
            apply h5
            rw [addSize_nonneg _ h0]
            exact Nat.mod_lt _ (by decide)
          · rw [h8]; simp [max_descriptors, setSlot]
        · have hne : fd ≠ g := fun h => hgf h.symm
          rcases holds_or_empty hg with he | ⟨d, hdg⟩
          · obtain ⟨s1, br1, bw1, h1, h2, h3, h4, h5, h6, h7, h8⟩ := ih s br bw hd hrest
            refine ⟨s1, br1, bw1, ?_, h2, ?_, h4, h5, h6, h7, h8⟩
            · simp only [run, step_read_pos s g hpos, trace_read_empty rc he]
              exact h1
            · have hp : ¬ (g = fd ∧ rc > 0) := fun h => hgf h.1
              simp only [readSum, hp, if_false, Nat.zero_add]
              exact h3
          · obtain ⟨s1, br1, bw1, h1, h2, h3, h4, h5, h6, h7, h8⟩ :=
              ih (setSlot s g.toNat (some { d with bread := addSize d.bread rc })) br bw
                (by unfold Holds; rw [index_set_other _ hg hne]; exact hd)
                (by simpa [max_descriptors, setSlot] using hrest)
            refine ⟨s1, br1, bw1, ?_, h2, ?_, h4, h5, h6, h7, ?_⟩
            · simp only [run, step_read_pos s g hpos, trace_read_holds rc hdg,
                store_of_inRange _ hg]
              exact h1
            · have hp : ¬ (g = fd ∧ rc > 0) := fun h => hgf h.1
              simp only [readSum, hp, if_false, Nat.zero_add]
              exact h3
            · rw [h8]; simp [max_descriptors, setSlot]
      · have hle : rc ≤ 0 := by omega
        obtain ⟨s1, br1, bw1, h1, h2, h3, h4, h5, h6, h7, h8⟩ := ih s br bw hd hrest
        refine ⟨s1, br1, bw1, ?_, h2, ?_, h4, h5, h6, h7, h8⟩
        · simp only [run, step_read_nonpos s g hle]
          exact h1
        · have hp : ¬ (g = fd ∧ rc > 0) := fun h => hpos h.2
          simp only [readSum, hp, if_false, Nat.zero_add]
          exact h3
    | write g rc =>
      simp only [Call.isReadWrite, decide_eq_true_eq] at hr
      by_cases hpos : 0 < rc
      · have hg : 0 ≤ g ∧ g < max_descriptors s := by
          rcases hr with h | h
          · omega
          · exact h
        have h0 : 0 ≤ rc := by omega
        by_cases hgf : g = fd
        · subst hgf
          obtain ⟨s1, br1, bw1, h1, h2, h3, h4, h5, h6, h7, h8⟩ :=
            ih (setSlot s g.toNat (some ⟨path, br, addSize bw rc⟩)) br (addSize bw rc)
              (index_set_same _ hg) (by simpa [max_descriptors, setSlot] using hrest)
          refine ⟨s1, br1, bw1, ?_, h2, h3, ?_, h5, ?_, h7, ?_⟩
          · simp only [run, step_write_pos s g hpos, trace_write_holds rc hd,
              store_of_inRange _ hg]
            exact h1
          · rw [h4, addSize_nonneg _ h0]
            have hp : g = g ∧ rc > 0 := ⟨rfl, hpos⟩
            simp only [writeSum, hp, and_self, if_true]
            rw [← Nat.add_assoc]
            exact mod_add_mod_size _ _ _ (Nat.mod_mod _ _)
          · intro _
            apply h6
            rw [addSize_nonneg _ h0]
            exact Nat.mod_lt _ (by decide)
          · rw [h8]; simp [max_descriptors, setSlot]
        · have hne : fd ≠ g := fun h => hgf h.symm
          rcases holds_or_empty hg with he | ⟨d, hdg⟩
          · obtain ⟨s1, br1, bw1, h1, h2, h3, h4, h5, h6, h7, h8⟩ := ih s br bw hd hrest
            refine ⟨s1, br1, bw1, ?_, h2, h3, ?_, h5, h6, h7, h8⟩
            · simp only [run, step_write_pos s g hpos, trace_write_empty rc he]
              exact h1
            · have hp : ¬ (g = fd ∧ rc > 0) := fun h => hgf h.1
              simp only [writeSum, hp, if_false, Nat.zero_add]
              exact h4
          · obtain ⟨s1, br1, bw1, h1, h2, h3, h4, h5, h6, h7, h8⟩ :=
              ih (setSlot s g.toNat (some { d with bwrite := addSize d.bwrite rc })) br bw
                (by unfold Holds; rw [index_set_other _ hg hne]; exact hd)
                (by simpa [max_descriptors, setSlot] using hrest)
            refine ⟨s1, br1, bw1, ?_, h2, h3, ?_, h5, h6, h7, ?_⟩
            · simp only [run, step_write_pos s g hpos, trace_write_holds rc hdg,
                store_of_inRange _ hg]
              exact h1
            · have hp : ¬ (g = fd ∧ rc > 0) := fun h => hgf h.1
              simp only [writeSum, hp, if_false, Nat.zero_add]
              exact h4
            · rw [h8]; simp [max_descriptors, setSlot]
      · have hle : rc ≤ 0 := by omega
        obtain ⟨s1, br1, bw1, h1, h2, h3, h4, h5, h6, h7, h8⟩ := ih s br bw hd hrest
        refine ⟨s1, br1, bw1, ?_, h2, h3, ?_, h5, h6, h7, h8⟩
        · simp only [run, step_write_nonpos s g hle]
          exact h1
        · have hp : ¬ (g = fd ∧ rc > 0) := fun h => hpos h.2
          simp only [writeSum, hp, if_false, Nat.zero_add]
          exact h4
    | «open» _ _ _ => simp [Call.isReadWrite] at hr
    | open64 _ _ _ => simp [Call.isReadWrite] at hr
    | openat _ _ _ => simp [Call.isReadWrite] at hr
    | openat64 _ _ _ => simp [Call.isReadWrite] at hr
    | creat _ _ _ => simp [Call.isReadWrite] at hr
    | creat64 _ _ _ => simp [Call.isReadWrite] at hr
    | fopen _ _ _ => simp [Call.isReadWrite] at hr
    | fopen64 _ _ _ => simp [Call.isReadWrite] at hr
    | freopen _ _ _ => simp [Call.isReadWrite] at hr
    | freopen64 _ _ _ => simp [Call.isReadWrite] at hr
    | close _ _ _ => simp [Call.isReadWrite] at hr
    | fclose _ _ _ => simp [Call.isReadWrite] at hr

theorem trace_close_emits {s : State} {fd : Int} {d : Descriptor} {stat : Stat} {size : Nat}
    {f : FILE} (hd : Holds s fd d) (hst : stat d.path = some size) (hsink : s.trace = some f)
    (hopen : f.isOpen = true) :
    ∃ s1, trace_close s fd stat = .ok s1 ∧
      s1.trace = some ⟨true, f.lines ++ [.file d.path size d.bread d.bwrite]⟩ ∧
      s1.descriptors = s.descriptors.set fd.toNat none ∧ s1.stderr = s.stderr ∧
      Empty s1 fd := by
  have hr := (inRange_of_index hd).1
  obtain ⟨o, ls⟩ := f
  simp only at hopen
  subst hopen
  refine ⟨setSlot { s with trace := some ⟨true, ls ++
      [.file d.path size d.bread d.bwrite]⟩ } fd.toNat none, ?_, rfl, rfl, rfl, ?_⟩
  · unfold trace_close
    rw [hd]
    simp only [hst, tprintf, hsink, if_true]
    exact store_of_inRange (s := { s with trace := some ⟨true, ls ++
      [.file d.path size d.bread d.bwrite]⟩ }) none hr
  · exact index_set_same (s := { s with trace := some ⟨true, ls ++
      [.file d.path size d.bread d.bwrite]⟩ }) none hr

/-- C1 (amended): while the trace file is open, a successful open-like call that registers `fd`
under a tracked path, followed by any `read`/`write` calls (on descriptors within the table)
and by `close(fd)` at a moment when `stat` of the path succeeds, appends exactly one line to the
trace: the `file:` line with the path, the size, and the sums (modulo `2 ^ 64`) of the positive
`read` and `write` results seen on `fd`; slot `fd` is empty afterwards. -/
theorem tracked_span_emits_one_line (s : State) (f : FILE) (c : Call) (fd : Int)
    (path : String) (rws : List Call) (stat : Stat) (size : Nat) (rc : Int)
    (hsink : s.trace = some f) (hopen : f.isOpen = true)
    (hreg : c.registers = some (fd, path)) (htracked : ¬ Filtered path)
    (hfd : 0 ≤ fd ∧ fd < max_descriptors s)
    (hrws : rws.all (fun r => r.isReadWrite (max_descriptors s)) = true)
    (hstat : stat path = some size) :
    ∃ s1, run s (c :: (rws ++ [Call.close fd stat rc])) = .ok s1 ∧
      emitted s1 = emitted s ++
        [Line.file path size (readSum fd rws % SIZE_MOD) (writeSum fd rws % SIZE_MOD)] ∧
      Empty s1 fd := by
  have hstep : step s c = .ok (setSlot s fd.toNat (some ⟨path, 0, 0⟩)) := by
    rw [step_registers s hreg, trace_file_tracked _ _ _ htracked, store_of_inRange _ hfd]
  obtain ⟨s1, br1, bw1, h1, h2, h3, h4, h5, h6, h7, h8⟩ :=
    run_readwrites fd path rws (setSlot s fd.toNat (some ⟨path, 0, 0⟩)) 0 0
      (index_set_same _ hfd) (by simpa [max_descriptors, setSlot] using hrws)
  have hM : 0 < SIZE_MOD := by decide
  have hbr : br1 = readSum fd rws % SIZE_MOD := by
    rw [← Nat.mod_eq_of_lt (h5 hM), h3, Nat.zero_add]
  have hbw : bw1 = writeSum fd rws % SIZE_MOD := by
    rw [← Nat.mod_eq_of_lt (h6 hM), h4, Nat.zero_add]
  have hs1 : s1.trace = some f := by rw [h7]; exact hsink
  obtain ⟨s2, c1, c2, _, _, c5⟩ := trace_close_emits h2 hstat hs1 hopen
  refine ⟨s2, ?_, ?_, c5⟩
  · simp only [run, hstep]
    rw [run_append, h1]
    simp only [run, step_close, c1]
  · simp only [emitted, c2, hsink, hbr, hbw]

/-- Witness of C1 (amended): open `/data/in.txt` as descriptor 3, read 100 and 50 bytes, close. -/
theorem tracked_span_emits_one_line_witness :
    interpose_init envOn = .ok freshOn ∧
    ∃ s1, run freshOn (Call.open "in.txt" 3 (some "/data/in.txt") ::
        ([Call.read 3 100, Call.read 3 50] ++ [Call.close 3 statOk 0])) = .ok s1 ∧
      emitted s1 = emitted freshOn ++
        [Line.file "/data/in.txt" 4096 (readSum 3 [Call.read 3 100, Call.read 3 50] % SIZE_MOD)
          (writeSum 3 [Call.read 3 100, Call.read 3 50] % SIZE_MOD)] ∧
      Empty s1 3 :=
  ⟨rfl, tracked_span_emits_one_line freshOn ⟨true, [.start "0.0"]⟩ _ 3 "/data/in.txt" _ statOk
    4096 0 rfl rfl rfl (by decide) (by decide) (by decide) rfl⟩

/-- Counterexample to C1 as stated: with `KICKSTART_PREFIX` unset, descriptor 3 is registered
under the tracked path `/data/in.txt`, 100 and 50 bytes are read, and `close(3)` retires the
record while `stat` succeeds, yet no `file:` line is emitted. -/
theorem tracked_span_without_sink_emits_nothing :
    interpose_init envOff = .ok freshOff ∧ ¬ Filtered "/data/in.txt" ∧
    ∃ s1 s2, run freshOff [.open "in.txt" 3 (some "/data/in.txt")] = .ok s1 ∧
      Holds s1 3 ⟨"/data/in.txt", 0, 0⟩ ∧
      run s1 [.read 3 100, .read 3 50, .close 3 statOk 0] = .ok s2 ∧
      Empty s2 3 ∧ emitted s2 = [] :=
  ⟨rfl, by decide, _, _, rfl, rfl, rfl, rfl, rfl⟩

/-! ## Finalization -/

theorem appends_refl {s : State} {ls : List Line} (h : s.trace = some ⟨true, ls⟩) :
    Appends s s :=
  ⟨rfl, ls, [], h, by rw [List.append_nil]; exact h, fun _ hl => by cases hl⟩

theorem appends_trans {s s1 s2 : State} (h1 : Appends s s1) (h2 : Appends s1 s2) :
    Appends s s2 := by
  obtain ⟨d1, ls, e1, a1, b1, c1⟩ := h1
  obtain ⟨d2, ls2, e2, a2, b2, c2⟩ := h2
  rw [b1] at a2
  injection a2 with a2
  injection a2 with _ a2
  subst a2
  refine ⟨d2.trans d1, ls, e1 ++ e2, a1, by rw [b2, List.append_assoc], ?_⟩
  intro l hl
  rcases List.mem_append.mp hl with h | h
  · exact c1 l h
  · exact c2 l h

theorem appends_stderr {s : State} {ls : List Line} (x : List Diag)
    (h : s.trace = some ⟨true, ls⟩) : Appends s { s with stderr := x } :=
  ⟨rfl, ls, [], h, by rw [List.append_nil]; exact h, fun _ hl => by cases hl⟩

theorem tprintf_appends {s : State} {ls : List Line} (l : Line) (h : s.trace = some ⟨true, ls⟩)
    (hl : l.isFile = false) : ∃ n s1, tprintf s l = .ok (n, s1) ∧ Appends s s1 := by
  refine ⟨(l.text.length : Int), { s with trace := some ⟨true, ls ++ [l]⟩ }, ?_, rfl, ls, [l],
    h, rfl, ?_⟩
  · simp only [tprintf, h, if_true]
  · intro l1 h1
    rw [List.mem_singleton] at h1
    subst h1
    exact hl

theorem open_of_appends {s s1 : State} (h : Appends s s1) : ∃ ls, s1.trace = some ⟨true, ls⟩ := by
  obtain ⟨_, ls, e, _, b, _⟩ := h
  exact ⟨ls ++ e, b⟩

theorem passThrough_appends (keep : String → Bool) (lines : List String) :
    ∀ {s : State} {ls : List Line}, s.trace = some ⟨true, ls⟩ →
      ∃ s1, passThrough keep s lines = .ok s1 ∧ Appends s s1 := by
  induction lines with
  | nil =>
    intro s ls h
    exact ⟨s, rfl, appends_refl h⟩
  | cons line rest ih =>
    intro s ls h
    unfold passThrough
    by_cases hk : keep line = true
    · obtain ⟨n, s1, h1, a1⟩ := tprintf_appends (.verbatim line) h rfl
      obtain ⟨ls1, o1⟩ := open_of_appends a1
      obtain ⟨s2, h2, a2⟩ := ih o1
      refine ⟨s2, ?_, appends_trans a1 a2⟩
      simp only [hk, if_true, h1]
      exact h2
    · obtain ⟨s2, h2, a2⟩ := ih h
      refine ⟨s2, ?_, a2⟩
      simp only [hk]
      exact h2

theorem read_exe_appends {s : State} {ls : List Line} (p : ProcFs)
    (h : s.trace = some ⟨true, ls⟩) : ∃ s1, read_exe s p = .ok s1 ∧ Appends s s1 := by
  unfold read_exe
  cases p.exe with
  | none => exact ⟨_, rfl, appends_stderr _ h⟩
  | some exe =>
    obtain ⟨n, s1, h1, a1⟩ := tprintf_appends (.exe exe) h rfl
    refine ⟨s1, ?_, a1⟩
    simp only [h1]
    rfl

theorem read_status_appends {s : State} {ls : List Line} (p : ProcFs)
    (h : s.trace = some ⟨true, ls⟩) : ∃ s1, read_status s p = .ok s1 ∧ Appends s s1 := by
  unfold read_status
  cases p.status with
  | missing => exact ⟨_, rfl, appends_refl h⟩
  | unreadable => exact ⟨_, rfl, appends_stderr _ h⟩
  | content lines => exact passThrough_appends _ _ h

theorem read_stat_appends {s : State} {ls : List Line} (p : ProcFs)
    (h : s.trace = some ⟨true, ls⟩) : ∃ s1, read_stat s p = .ok s1 ∧ Appends s s1 := by
  unfold read_stat
  cases p.cpu with
  | missing => exact ⟨_, rfl, appends_refl h⟩
  | unreadable => exact ⟨_, rfl, appends_stderr _ h⟩
  | content c =>
    obtain ⟨u, v⟩ := c
    obtain ⟨n, s1, h1, a1⟩ := tprintf_appends (.utime u) h rfl
    obtain ⟨ls1, o1⟩ := open_of_appends a1
    obtain ⟨n2, s2, h2, a2⟩ := tprintf_appends (.stime v) o1 rfl
    refine ⟨s2, ?_, appends_trans a1 a2⟩
    simp only [h1, h2]
    rfl

theorem read_io_appends {s : State} {ls : List Line} (p : ProcFs)
    (h : s.trace = some ⟨true, ls⟩) : ∃ s1, read_io s p = .ok s1 ∧ Appends s s1 := by
  unfold read_io
  cases p.io with
  | missing => exact ⟨_, rfl, appends_refl h⟩
  | unreadable => exact ⟨_, rfl, appends_stderr _ h⟩
  | content lines => exact passThrough_appends _ _ h

theorem index_append {s : State} {pre suf : List (Option Descriptor)} {x : Option Descriptor}
    (h : s.descriptors = pre ++ x :: suf) : index s (pre.length : Int) = .ok x := by
  have hr : 0 ≤ (pre.length : Int) ∧ (pre.length : Int) < max_descriptors s := by
    unfold max_descriptors
    rw [h]
    simp only [List.length_append, List.length_cons]
    omega
  rw [index_of_inRange hr, h, Int.toNat_natCast, List.getD_eq_getElem?_getD,
    List.getElem?_append_right (Nat.le_refl _), Nat.sub_self]
  simp

theorem set_append (pre suf : List (Option Descriptor)) (x v : Option Descriptor) :
    (pre ++ x :: suf).set pre.length v = pre ++ v :: suf := by
  induction pre with
  | nil => rfl
  | cons a pre ih => simp only [List.cons_append, List.length_cons, List.set_cons_succ, ih]

theorem fini_loop_emits (stat : Stat) (size : String → Nat) (suf : List (Option Descriptor)) :
    ∀ (pre : List (Option Descriptor)) (s : State) (ls : List Line),
      s.descriptors = pre ++ suf → s.trace = some ⟨true, ls⟩ →
      (∀ d, some d ∈ suf → stat d.path = some (size d.path)) →
      ∃ s1, fini_loop stat suf.length pre.length s = .ok s1 ∧
        s1.descriptors = pre ++ List.replicate suf.length none ∧
        s1.trace = some ⟨true, ls ++ (suf.filterMap id).map (fileLine size)⟩ := by
  induction suf with
  | nil =>
    intro pre s ls hd ht _
    exact ⟨s, rfl, hd, by simpa using ht⟩
  | cons x suf ih =>
    intro pre s ls hd ht hst
    have hi := index_append hd
    cases x with
    | none =>
      obtain ⟨s1, h1, h2, h3⟩ := ih (pre ++ [none]) s ls (by rw [hd]; simp) ht
        (fun d hm => hst d (List.mem_cons_of_mem _ hm))
      refine ⟨s1, ?_, ?_, ?_⟩
      · simp only [List.length_cons, fini_loop, hi]
        simpa using h1
      · rw [h2]; simp [List.replicate_succ]
      · rw [h3]; simp
    | some d =>
      have hdst := hst d (List.mem_cons_self _ _)
      obtain ⟨s0, c1, c2, c3, _, _⟩ := trace_close_emits (d := d) hi hdst ht rfl
      obtain ⟨s1, h1, h2, h3⟩ := ih (pre ++ [none]) s0 (ls ++ [fileLine size d])
        (by rw [c3, hd]; simp [set_append]) c2
        (fun d hm => hst d (List.mem_cons_of_mem _ hm))
      refine ⟨s1, ?_, ?_, ?_⟩
      · simp only [List.length_cons, fini_loop, hi, c1]
        simpa using h1
      · rw [h2]; simp [List.replicate_succ]
      · rw [h3]; simp

/-- C2 (amended): while the trace file is open and `stat` succeeds for every recorded path,
`interpose_fini` appends to the trace one `file:` line for each slot that holds a record, in
slot order, with that record's path and counters, then only lines that are not `file:` lines;
every slot is empty afterwards, so a slot already emptied by `close` yields no line. -/
theorem fini_emits_each_live_record (s : State) (ls : List Line) (p : ProcFs)
    (size : String → Nat) (hsink : s.trace = some ⟨true, ls⟩)
    (hstat : ∀ d, some d ∈ s.descriptors → p.stat d.path = some (size d.path)) :
    ∃ s1 rest, interpose_fini s p = .ok s1 ∧
      emitted s1 = emitted s ++ (live s).map (fileLine size) ++ rest ∧
      (∀ l ∈ rest, l.isFile = false) ∧
      s1.descriptors = List.replicate s.descriptors.length none := by
  obtain ⟨a1, h1, d1, t1⟩ := fini_loop_emits p.stat size s.descriptors [] s ls rfl hsink hstat
  obtain ⟨a2, h2, p2⟩ := read_exe_appends p t1
  obtain ⟨_, o2⟩ := open_of_appends p2
  obtain ⟨a3, h3, p3⟩ := read_status_appends p o2
  obtain ⟨_, o3⟩ := open_of_appends p3
  obtain ⟨a4, h4, p4⟩ := read_stat_appends p o3
  obtain ⟨_, o4⟩ := open_of_appends p4
  obtain ⟨a5, h5, p5⟩ := read_io_appends p o4
  obtain ⟨_, o5⟩ := open_of_appends p5
  obtain ⟨n6, a6, h6, p6⟩ := tprintf_appends (.stop p.now) o5 rfl
  obtain ⟨hd, ls0, extra, e1, e2, e3⟩ :=
    appends_trans p2 (appends_trans p3 (appends_trans p4 (appends_trans p5 p6)))
  rw [t1] at e1
  injection e1 with e1
  injection e1 with _ e1
  subst e1
  refine ⟨{ a6 with trace := some ⟨false, ls ++ (live s).map (fileLine size) ++ extra⟩ },
    extra, ?_, ?_, e3, ?_⟩
  · simp only [List.length_nil] at h1
    simp only [interpose_fini, max_toNat, h1, h2, h3, h4, h5, h6, tclose, e2, if_true]
    rfl
  · simp only [emitted, hsink]
  · show a6.descriptors = _
    rw [hd, d1]
    rfl

/-- Witness of C2 (amended): descriptor 3 is open on `/data/out.txt` with 200 bytes written
when the process exits. -/
theorem fini_emits_each_live_record_witness :
    run freshOn scenarioOut = .ok (setSlot freshOn 3 (some ⟨"/data/out.txt", 0, 200⟩)) ∧
    ∃ s1 rest, interpose_fini (setSlot freshOn 3 (some ⟨"/data/out.txt", 0, 200⟩)) procNone
        = .ok s1 ∧
      emitted s1 = emitted (setSlot freshOn 3 (some ⟨"/data/out.txt", 0, 200⟩)) ++
        (live (setSlot freshOn 3 (some ⟨"/data/out.txt", 0, 200⟩))).map
          (fileLine (fun _ => 4096)) ++ rest ∧
      (∀ l ∈ rest, l.isFile = false) ∧
      s1.descriptors = List.replicate
        (setSlot freshOn 3 (some ⟨"/data/out.txt", 0, 200⟩)).descriptors.length none :=
  ⟨rfl, fini_emits_each_live_record _ [.start "0.0"] procNone (fun _ => 4096) rfl
    (fun _ _ => rfl)⟩

/-- Counterexample to C2 as stated: with `KICKSTART_PREFIX` unset, slot 3 still holds the
record of `/data/out.txt` (200 bytes written) at exit and `stat` succeeds, yet
`interpose_fini` emits no `file:` line. -/
theorem fini_without_sink_emits_nothing :
    interpose_init envOff = .ok freshOff ∧
    ∃ s1 s2, run freshOff scenarioOut = .ok s1 ∧ Holds s1 3 ⟨"/data/out.txt", 0, 200⟩ ∧
      procNone.stat "/data/out.txt" = some 4096 ∧
      interpose_fini s1 procNone = .ok s2 ∧ emitted s2 = [] :=
  ⟨rfl, _, _, rfl, rfl, rfl, rfl, rfl⟩

/-! ## Tracing disabled -/

theorem store_keeps {s : State} {fd : Int} (v : Option Descriptor)
    (h : 0 ≤ fd ∧ fd < max_descriptors s) :
    ∃ s1, store s fd v = .ok s1 ∧ s1.trace = s.trace ∧
      max_descriptors s1 = max_descriptors s :=
  ⟨_, store_of_inRange v h, rfl, by simp [max_descriptors, setSlot]⟩

theorem trace_file_keeps {s : State} {fd : Int} (path : String)
    (h : 0 ≤ fd ∧ fd < max_descriptors s) :
    ∃ s1, trace_file s path fd = .ok s1 ∧ s1.trace = s.trace ∧
      max_descriptors s1 = max_descriptors s := by
  unfold trace_file
  split
  · exact ⟨s, rfl, rfl, rfl⟩
  · exact store_keeps _ h

theorem trace_open_keeps {s : State} {fd : Int} (path : String) (full : Option String)
    (h : 0 ≤ fd ∧ fd < max_descriptors s) :
    ∃ s1, trace_open s path full fd = .ok s1 ∧ s1.trace = s.trace ∧
      max_descriptors s1 = max_descriptors s := by
  unfold trace_open
  cases full with
  | none => exact ⟨_, rfl, rfl, rfl⟩
  | some p => exact trace_file_keeps p h

theorem trace_openat_keeps {s : State} {fd : Int} (len : Int) (full : String)
    (h : 0 ≤ fd ∧ fd < max_descriptors s) :
    ∃ s1, trace_openat s fd len full = .ok s1 ∧ s1.trace = s.trace ∧
      max_descriptors s1 = max_descriptors s := by
  unfold trace_openat
  split
  · exact ⟨_, rfl, rfl, rfl⟩
  · split
    · exact ⟨_, rfl, rfl, rfl⟩
    · exact trace_file_keeps full h

theorem trace_read_keeps {s : State} {fd : Int} (amount : Int)
    (h : 0 ≤ fd ∧ fd < max_descriptors s) :
    ∃ s1, trace_read s fd amount = .ok s1 ∧ s1.trace = s.trace ∧
      max_descriptors s1 = max_descriptors s := by
  rcases holds_or_empty h with he | ⟨d, hd⟩
  · exact ⟨s, trace_read_empty amount he, rfl, rfl⟩
  · rw [trace_read_holds amount hd]
    exact store_keeps _ h

theorem trace_write_keeps {s : State} {fd : Int} (amount : Int)
    (h : 0 ≤ fd ∧ fd < max_descriptors s) :
    ∃ s1, trace_write s fd amount = .ok s1 ∧ s1.trace = s.trace ∧
      max_descriptors s1 = max_descriptors s := by
  rcases holds_or_empty h with he | ⟨d, hd⟩
  · exact ⟨s, trace_write_empty amount he, rfl, rfl⟩
  · rw [trace_write_holds amount hd]
    exact store_keeps _ h

theorem trace_close_disabled {s : State} {fd : Int} (stat : Stat)
    (h : 0 ≤ fd ∧ fd < max_descriptors s) (hn : s.trace = none) :
    ∃ s1, trace_close s fd stat = .ok s1 ∧ s1.trace = none ∧
      max_descriptors s1 = max_descriptors s ∧
      (s1.descriptors = s.descriptors ∨ s1.descriptors = s.descriptors.set fd.toNat none) := by
  rcases holds_or_empty h with he | ⟨d, hd⟩
  · refine ⟨s, ?_, hn, rfl, Or.inl rfl⟩
    unfold trace_close
    rw [he]
  · cases hst : stat d.path with
    | none =>
      refine ⟨{ s with stderr := s.stderr ++ [.stat d.path] }, ?_, hn, rfl, Or.inl rfl⟩
      unfold trace_close
      rw [hd]
      simp only [hst]
    | some size =>
      refine ⟨setSlot s fd.toNat none, ?_, hn, by simp [max_descriptors, setSlot],
        Or.inr rfl⟩
      unfold trace_close
      rw [hd]
      simp only [hst, tprintf, hn]
      exact store_of_inRange none h

/-- With the trace pointer `NULL`, a call whose descriptors lie within the table returns to the
host what the real implementation returned, and the trace pointer stays `NULL`. -/
theorem handle_disabled {s : State} {c : Call} (hn : s.trace = none)
    (hc : c.inTable (max_descriptors s) = true) :
    ∃ s1, handle s c = .ok (c.real, s1) ∧ s1.trace = none ∧
      max_descriptors s1 = max_descriptors s := by
  cases c with
  | «open» p rc full =>
    simp only [Call.inTable, decide_eq_true_eq] at hc
    simp only [handle, open_, Call.real]
    split
    · rename_i h0
      obtain ⟨s1, h1, h2, h3⟩ := trace_open_keeps (s := s) p full ⟨h0, hc⟩
      exact ⟨s1, by rw [h1]; rfl, h2.trans hn, h3⟩
    · exact ⟨s, rfl, hn, rfl⟩
  | open64 p rc full =>
    simp only [Call.inTable, decide_eq_true_eq] at hc
    simp only [handle, open64, Call.real]
    split
    · rename_i h0
      obtain ⟨s1, h1, h2, h3⟩ := trace_open_keeps (s := s) p full ⟨h0, hc⟩
      exact ⟨s1, by rw [h1]; rfl, h2.trans hn, h3⟩
    · exact ⟨s, rfl, hn, rfl⟩
  | creat p rc full =>
    simp only [Call.inTable, decide_eq_true_eq] at hc
    simp only [handle, creat, Call.real]
    split
    · rename_i h0
      obtain ⟨s1, h1, h2, h3⟩ := trace_open_keeps (s := s) p full ⟨h0, hc⟩
      exact ⟨s1, by rw [h1]; rfl, h2.trans hn, h3⟩
    · exact ⟨s, rfl, hn, rfl⟩
  | creat64 p rc full =>
    simp only [Call.inTable, decide_eq_true_eq] at hc
    simp only [handle, creat64, Call.real]
    split
    · rename_i h0
      obtain ⟨s1, h1, h2, h3⟩ := trace_open_keeps (s := s) p full ⟨h0, hc⟩
      exact ⟨s1, by rw [h1]; rfl, h2.trans hn, h3⟩
    · exact ⟨s, rfl, hn, rfl⟩
  | openat rc len full =>
    simp only [Call.inTable, decide_eq_true_eq] at hc
    simp only [handle, openat, Call.real]
    split
    · rename_i h0
      obtain ⟨s1, h1, h2, h3⟩ := trace_openat_keeps (s := s) len full ⟨h0, hc⟩
      exact ⟨s1, by rw [h1]; rfl, h2.trans hn, h3⟩
    · exact ⟨s, rfl, hn, rfl⟩
  | openat64 rc len full =>
    simp only [Call.inTable, decide_eq_true_eq] at hc
    simp only [handle, openat64, Call.real]
    split
    · rename_i h0
      obtain ⟨s1, h1, h2, h3⟩ := trace_openat_keeps (s := s) len full ⟨h0, hc⟩
      exact ⟨s1, by rw [h1]; rfl, h2.trans hn, h3⟩
    · exact ⟨s, rfl, hn, rfl⟩
  | fopen p f full =>
    cases f with
    | none => exact ⟨s, rfl, hn, rfl⟩
    | some fd =>
      simp only [Call.inTable, decide_eq_true_eq] at hc
      obtain ⟨s1, h1, h2, h3⟩ := trace_open_keeps (s := s) p full hc
      exact ⟨s1, by simp only [handle, fopen, Call.real, h1]; rfl, h2.trans hn, h3⟩
  | fopen64 p f full =>
    cases f with
    | none => exact ⟨s, rfl, hn, rfl⟩
    | some fd =>
      simp only [Call.inTable, decide_eq_true_eq] at hc
      obtain ⟨s1, h1, h2, h3⟩ := trace_open_keeps (s := s) p full hc
      exact ⟨s1, by simp only [handle, fopen64, Call.real, h1]; rfl, h2.trans hn, h3⟩
  | freopen p f full =>
    cases f with
    | none => exact ⟨s, rfl, hn, rfl⟩
    | some fd =>
      simp only [Call.inTable, decide_eq_true_eq] at hc
      obtain ⟨s1, h1, h2, h3⟩ := trace_open_keeps (s := s) p full hc
      exact ⟨s1, by simp only [handle, freopen, Call.real, h1]; rfl, h2.trans hn, h3⟩
  | freopen64 p f full =>
    cases f with
    | none => exact ⟨s, rfl, hn, rfl⟩
    | some fd =>
      simp only [Call.inTable, decide_eq_true_eq] at hc
      obtain ⟨s1, h1, h2, h3⟩ := trace_open_keeps (s := s) p full hc
      exact ⟨s1, by simp only [handle, freopen64, Call.real, h1]; rfl, h2.trans hn, h3⟩
  | close fd stat rc =>
    simp only [Call.inTable, decide_eq_true_eq] at hc
    obtain ⟨s1, h1, h2, h3, _⟩ := trace_close_disabled stat hc hn
    exact ⟨s1, by simp only [handle, close, Call.real, h1]; rfl, h2, h3⟩
  | fclose fp stat rc =>
    cases fp with
    | none => exact ⟨s, rfl, hn, rfl⟩
    | some fd =>
      simp only [Call.inTable, decide_eq_true_eq] at hc
      obtain ⟨s1, h1, h2, h3, _⟩ := trace_close_disabled stat hc hn
      exact ⟨s1, by simp only [handle, fclose, Call.real, h1]; rfl, h2, h3⟩
  | read fd rc =>
    simp only [Call.inTable, decide_eq_true_eq] at hc
    simp only [handle, read, Call.real]
    split
    · rename_i h0
      have hr : 0 ≤ fd ∧ fd < max_descriptors s := by
        rcases hc with h | h
        · omega
        · exact h
      obtain ⟨s1, h1, h2, h3⟩ := trace_read_keeps rc hr
      exact ⟨s1, by rw [h1]; rfl, h2.trans hn, h3⟩
    · exact ⟨s, rfl, hn, rfl⟩
  | write fd rc =>
    simp only [Call.inTable, decide_eq_true_eq] at hc
    simp only [handle, write, Call.real]
    split
    · rename_i h0
      have hr : 0 ≤ fd ∧ fd < max_descriptors s := by
        rcases hc with h | h
        · omega
        · exact h
      obtain ⟨s1, h1, h2, h3⟩ := trace_write_keeps rc hr
      exact ⟨s1, by rw [h1]; rfl, h2.trans hn, h3⟩
    · exact ⟨s, rfl, hn, rfl⟩

theorem runRets_disabled (cs : List Call) :
    ∀ s : State, s.trace = none → cs.all (fun c => c.inTable (max_descriptors s)) = true →
      ∃ s1, runRets s cs = .ok (cs.map Call.real, s1) ∧ s1.trace = none := by
  induction cs with
  | nil => intro s hn _; exact ⟨s, rfl, hn⟩
  | cons c cs ih =>
    intro s hn hall
    rw [List.all_cons, Bool.and_eq_true] at hall
    obtain ⟨s1, h1, h2, h3⟩ := handle_disabled hn hall.1
    obtain ⟨s2, h4, h5⟩ := ih s1 h2 (by rw [h3]; exact hall.2)
    refine ⟨s2, ?_, h5⟩
    simp only [runRets, h1, h4, List.map_cons]
    rfl

theorem fini_loop_disabled (stat : Stat) (suf : List (Option Descriptor)) :
    ∀ (pre : List (Option Descriptor)) (s : State),
      s.descriptors = pre ++ suf → s.trace = none →
      ∃ s1, fini_loop stat suf.length pre.length s = .ok s1 ∧ s1.trace = none := by
  induction suf with
  | nil => intro pre s _ hn; exact ⟨s, rfl, hn⟩
  | cons x suf ih =>
    intro pre s hd hn
    have hi := index_append hd
    cases x with
    | none =>
      obtain ⟨s1, h1, h2⟩ := ih (pre ++ [none]) s (by rw [hd]; simp) hn
      refine ⟨s1, ?_, h2⟩
      simp only [List.length_cons, fini_loop, hi]
      simpa using h1
    | some d =>
      have hr := (inRange_of_index hi).1
      obtain ⟨s0, c1, c2, _, c4⟩ := trace_close_disabled stat hr hn
      have hv : ∃ v, s0.descriptors = (pre ++ [v]) ++ suf := by
        rcases c4 with c4 | c4
        · exact ⟨some d, by rw [c4, hd]; simp⟩
        · exact ⟨none, by rw [c4, hd]; simp [set_append]⟩
      obtain ⟨v, hv⟩ := hv
      obtain ⟨s1, h1, h2⟩ := ih (pre ++ [v]) s0 hv c2
      refine ⟨s1, ?_, h2⟩
      simp only [List.length_cons, fini_loop, hi, c1]
      simpa using h1

theorem passThrough_disabled (keep : String → Bool) (lines : List String) {s : State}
    (hn : s.trace = none) : passThrough keep s lines = .ok s := by
  induction lines with
  | nil => rfl
  | cons line rest ih =>
    unfold passThrough
    split
    · simp only [tprintf, hn]
      exact ih
    · exact ih

theorem fini_disabled (s : State) (p : ProcFs) (hn : s.trace = none) :
    ∃ s1, interpose_fini s p = .ok s1 ∧ s1.trace = none := by
  obtain ⟨a1, h1, t1⟩ := fini_loop_disabled p.stat s.descriptors [] s rfl hn
  simp only [List.length_nil] at h1
  have e2 : ∃ a2, read_exe a1 p = .ok a2 ∧ a2.trace = none := by
    unfold read_exe
    cases p.exe with
    | none => exact ⟨_, rfl, t1⟩
    | some exe => exact ⟨a1, by simp only [tprintf, t1]; rfl, t1⟩
  obtain ⟨a2, h2, t2⟩ := e2
  have e3 : ∃ a3, read_status a2 p = .ok a3 ∧ a3.trace = none := by
    unfold read_status
    cases p.status with
    | missing => exact ⟨_, rfl, t2⟩
    | unreadable => exact ⟨_, rfl, t2⟩
    | content lines => exact ⟨a2, passThrough_disabled _ _ t2, t2⟩
  obtain ⟨a3, h3, t3⟩ := e3
  have e4 : ∃ a4, read_stat a3 p = .ok a4 ∧ a4.trace = none := by
    unfold read_stat
    cases p.cpu with
    | missing => exact ⟨_, rfl, t3⟩
    | unreadable => exact ⟨_, rfl, t3⟩
    | content c => exact ⟨a3, by simp only [tprintf, t3]; rfl, t3⟩
  obtain ⟨a4, h4, t4⟩ := e4
  have e5 : ∃ a5, read_io a4 p = .ok a5 ∧ a5.trace = none := by
    unfold read_io
    cases p.io with
    | missing => exact ⟨_, rfl, t4⟩
    | unreadable => exact ⟨_, rfl, t4⟩
    | content lines => exact ⟨a4, passThrough_disabled _ _ t4, t4⟩
  obtain ⟨a5, h5, t5⟩ := e5
  refine ⟨a5, ?_, t5⟩
  simp only [interpose_fini, max_toNat, h1, h2, h3, h4, h5, tprintf, tclose, t5]
  rfl

theorem init_disabled (e : Env)
    (h : e.kickstart = none ∨ ∀ name, e.fopen_ok name = false) :
    ∃ s, interpose_init e = .ok s ∧ s.trace = none ∧
      max_descriptors s = ((toInt32 e.rlim_max).toNat : Int) := by
  unfold interpose_init topen
  rcases h with h | h
  · rw [h]
    exact ⟨_, rfl, rfl, by simp [max_descriptors]⟩
  · cases e.kickstart with
    | none => exact ⟨_, rfl, rfl, by simp [max_descriptors]⟩
    | some pre =>
      simp only [h]
      exact ⟨_, rfl, rfl, by simp [max_descriptors]⟩

/-- When the constructor could not open the trace file, every sequence of calls whose
descriptors lie within the table returns to the host exactly what the real implementations
returned, the destructor then returns too, and nothing is ever printed: `tprintf` returns 0 and
leaves the state as it is. -/
theorem disabled_tracing_is_silent (e : Env)
    (h : e.kickstart = none ∨ ∀ name, e.fopen_ok name = false) (cs : List Call) (p : ProcFs)
    (hcs : cs.all (fun c => c.inTable ((toInt32 e.rlim_max).toNat : Int)) = true) :
    (∀ s l, s.trace = none → tprintf s l = .ok (0, s)) ∧
    ∃ s0 s1 s2, interpose_init e = .ok s0 ∧ s0.trace = none ∧
      runRets s0 cs = .ok (cs.map Call.real, s1) ∧ s1.trace = none ∧
      interpose_fini s1 p = .ok s2 ∧ s2.trace = none ∧ emitted s2 = [] := by
  refine ⟨fun s l hn => by simp only [tprintf, hn], ?_⟩
  obtain ⟨s0, h0, n0, m0⟩ := init_disabled e h
  obtain ⟨s1, h1, n1⟩ := runRets_disabled cs s0 n0 (by rw [m0]; exact hcs)
  obtain ⟨s2, h2, n2⟩ := fini_disabled s1 p n1
  exact ⟨s0, s1, s2, h0, n0, h1, n1, h2, n2, by simp only [emitted, n2]⟩

/-! ## Where the code departs from the specification -/

/-- In every state, when `stat` of the recorded path fails, `trace_close` only writes the
diagnostic: the table is as before, the record included. -/
theorem trace_close_stat_fails {s : State} {fd : Int} {d : Descriptor} {stat : Stat}
    (hd : Holds s fd d) (hst : stat d.path = none) :
    trace_close s fd stat = .ok { s with stderr := s.stderr ++ [.stat d.path] } := by
  unfold trace_close
  rw [hd]
  simp only [hst]

/-- C4: evaluation at the failing input. Descriptor 3 holds the record of `/data/a.txt`;
`close(3)` runs while `stat` fails: the failure is reported on `stderr` and the record is still
in slot 3 afterwards, so a second `close(3)` (with `stat` succeeding) retires it again and
prints its `file:` line. -/
theorem stat_failure_keeps_record :
    ∃ s1 s2 s3, run freshOn [.open "a.txt" 3 (some "/data/a.txt")] = .ok s1 ∧
      Holds s1 3 ⟨"/data/a.txt", 0, 0⟩ ∧
      step s1 (.close 3 statFail 0) = .ok s2 ∧
      s2.stderr = [.stat "/data/a.txt"] ∧ Holds s2 3 ⟨"/data/a.txt", 0, 0⟩ ∧
      step s2 (.close 3 statOk 0) = .ok s3 ∧
      emitted s3 = emitted s2 ++ [.file "/data/a.txt" 4096 0 0] ∧ Empty s3 3 :=
  ⟨_, _, _, rfl, rfl, rfl, rfl, rfl, rfl, rfl, rfl⟩

/-- C5: evaluation at the failing input. Descriptor 3 is opened on `/data/a.txt` and 100 bytes
are read; `close(3)` runs while `stat` fails; the system then hands out 3 again for
`/etc/hosts`. Slot 3 still holds the record of `/data/a.txt` with its 100 bytes, the 50 bytes
read from the new file are added to it, and the line finally printed reports 150 bytes. -/
theorem reused_descriptor_keeps_stale_record :
    ∃ s1 s2 s3, run freshOn [.open "a.txt" 3 (some "/data/a.txt"), .read 3 100] = .ok s1 ∧
      Holds s1 3 ⟨"/data/a.txt", 100, 0⟩ ∧
      run s1 [.close 3 statFail 0, .open "/etc/hosts" 3 (some "/etc/hosts")] = .ok s2 ∧
      Holds s2 3 ⟨"/data/a.txt", 100, 0⟩ ∧
      run s2 [.read 3 50, .close 3 statOk 0] = .ok s3 ∧
      emitted s3 = emitted s2 ++ [.file "/data/a.txt" 4096 150 0] :=
  ⟨_, _, _, rfl, rfl, rfl, rfl, rfl, rfl⟩

/-- C6: evaluation at the failing input. A stream is opened on `/data/a.txt` (descriptor 3)
and 100 bytes are read; `freopen` then reopens the stream on `/data/b.txt`, keeping
descriptor 3. The slot was not empty when the new record was created: the record of
`/data/a.txt` is replaced and no `file:` line was printed for it. -/
theorem freopen_replaces_live_record :
    ∃ s1 s2, run freshOn [.fopen "a.txt" (some 3) (some "/data/a.txt"), .read 3 100] = .ok s1 ∧
      Holds s1 3 ⟨"/data/a.txt", 100, 0⟩ ∧
      step s1 (.freopen "b.txt" (some 3) (some "/data/b.txt")) = .ok s2 ∧
      Holds s2 3 ⟨"/data/b.txt", 0, 0⟩ ∧ emitted s2 = emitted s1 :=
  ⟨_, _, rfl, rfl, rfl, rfl, rfl⟩

/-- C8: evaluation at the failing input. With `KICKSTART_PREFIX` unset the trace pointer is
`NULL` and `tprintf` returns 0 without printing, but the handler `close(-1)` does not hand back
the result of the real `close`: `trace_close` indexes the table at -1 first. -/
theorem sink_failure_invalid_close_faults :
    interpose_init envOff = .ok freshOff ∧ freshOff.trace = none ∧
    tprintf freshOff (.file "/data/a.txt" 4096 0 0) = .ok (0, freshOff) ∧
    (Call.close (-1) statOk (-1)).real = .int (-1) ∧
    handle freshOff (.close (-1) statOk (-1)) = .error (.bounds (-1)) :=
  ⟨rfl, rfl, rfl, rfl, rfl⟩

/-- C9: evaluation at the failing input. After `interpose_fini` the trace pointer still refers
to the stream that `tclose` closed, so `tprintf` does not take its `NULL` branch: opening a
tracked path and closing it again prints to the closed stream. -/
theorem emission_after_fini_uses_closed_stream :
    ∃ s1, interpose_fini freshOn procNone = .ok s1 ∧
      s1.trace = some ⟨false, [.start "0.0", .stop "9.0"]⟩ ∧
      tprintf s1 (.file "/data/x" 4096 0 0) = .error .stream ∧
      run s1 [.open "x" 3 (some "/data/x"), .close 3 statOk 0] = .error .stream :=
  ⟨_, rfl, rfl, rfl, rfl⟩

/-- C10: evaluation at the failing input. In a table of 16 slots, `close(-1)`, `close(16)` and
`fclose` of a stream whose `fileno` is -1 index the table outside `[0, 16)`. -/
theorem close_invalid_descriptor_out_of_bounds :
    max_descriptors freshOn = 16 ∧
    trace_close freshOn (-1) statOk = .error (.bounds (-1)) ∧
    handle freshOn (.close (-1) statOk (-1)) = .error (.bounds (-1)) ∧
    handle freshOn (.close 16 statOk (-1)) = .error (.bounds 16) ∧
    handle freshOn (.fclose (some (-1)) statOk (-1)) = .error (.bounds (-1)) :=
  ⟨rfl, rfl, rfl, rfl, rfl⟩

end Interpose
